import Mathlib

/-!
# Verification of the `parseform` form-urlencoded parser

A shallow embedding, in Lean 4, of the Go library `404th/parseform`
(`parser.go` in the root package and the struct-binding copy in
`parseform/parser.go`), together with theorems settling the frozen claims
about its specification.

Conventions of the embedding:
* Go strings are Lean `String`s (inputs of interest are ASCII, so Go's
  byte indexing and Lean's character indexing agree).
* Go maps (`url.Values`, `map[string]*keyGroup`, `map[int]*keyGroup`, ...)
  are association lists with assignment-overwrite update.  Go's random map
  iteration order is replaced by deterministic insertion order; every
  theorem below is order-insensitive (or is about a concrete input).
* Fallible Go code returns `Option` / `GoResult`: a Go runtime panic
  (out-of-range slice index) is `none` / `.panicked`, a returned `error`
  is `.goError`.
* `float64` values are carried exactly (`Rat` mantissa·10^exp or 2^exp);
  IEEE-754 rounding is not modelled, which is invisible to the claims
  (they only compare parses of short decimal literals).
-/

set_option maxRecDepth 16384

namespace Parseform

/-! ## Leaf values

`interface{}` values produced by the parser: raw strings, coerced
integers / floats / booleans, and the nested maps and arrays, plus `null`
(a Go `nil` interface, which serializes as JSON `null`). -/

/-- Result of Go's `strconv.ParseFloat`: a finite value (carried exactly as a
rational), a signed infinity, or NaN. -/
inductive GoFloat where
  | finite (q : Rat)
  | inf (neg : Bool)
  | nan
  deriving DecidableEq

/-- A dynamic Go value as built by `parseFormFlexibly` (an `interface{}`):
scalar leaves, arrays (`[]interface{}`), objects (`map[string]interface{}`,
modelled as an association list in deterministic construction order), and
`null` for a `nil` interface. -/
inductive JVal where
  | null
  | str (s : String)
  | int (n : Int)
  | float (f : GoFloat)
  | bool (b : Bool)
  | arr (elems : List JVal)
  | obj (fields : List (String × JVal))

/-! ## `strconv` primitives -/

/-- Decimal digit test (`'0'..'9'`), as used by Go's `strconv` parsers. -/
def isDecDigit (c : Char) : Bool :=
  '0' ≤ c ∧ c ≤ '9'

/-- Numeric value of a decimal digit character. -/
def digitVal (c : Char) : Nat := c.toNat - '0'.toNat

/-- Magnitude of a nonempty all-digit character list, most significant first. -/
def digitsToNat (cs : List Char) : Nat :=
  cs.foldl (fun acc c => acc * 10 + digitVal c) 0

/-- Splits an optional single leading sign (`'+'` or `'-'`) from a character
list, returning `(negative?, rest)`. -/
def splitSign : List Char → Bool × List Char
  | '+' :: rest => (false, rest)
  | '-' :: rest => (true, rest)
  | cs => (false, cs)

/-- Go `strconv.ParseInt(s, 10, 64)`: an optional sign followed by one or
more decimal digits, with the value required to fit in a signed 64-bit
integer; anything else (including underscores, which base-10 `ParseInt`
rejects) is an error, modelled as `none`. -/
def goParseInt64 (s : String) : Option Int :=
  let (neg, ds) := splitSign s.data
  if ds = [] ∨ ¬ ds.all isDecDigit then none
  else
    let m : Nat := digitsToNat ds
    if neg then
      if m ≤ 2 ^ 63 then some (-(m : Int)) else none
    else
      if m ≤ 2 ^ 63 - 1 then some (m : Int) else none

/-- Go `strconv.Atoi(s) = ParseInt(s, 10, 0)`; `int` is 64 bits on the
platforms this library targets, so it coincides with `ParseInt(s, 10, 64)`. -/
def goAtoi (s : String) : Option Int := goParseInt64 s

/-- Go `strconv.ParseUint(s, 10, 64)`: no sign allowed, one or more decimal
digits, value below `2^64`. -/
def goParseUint64 (s : String) : Option Nat :=
  let ds := s.data
  if ds = [] ∨ ¬ ds.all isDecDigit then none
  else
    let m : Nat := digitsToNat ds
    if m ≤ 2 ^ 64 - 1 then some m else none

/-- Go `strconv.ParseBool`: accepts exactly
`1, t, T, TRUE, true, True` (true) and `0, f, F, FALSE, false, False`
(false). -/
def goParseBool (s : String) : Option Bool :=
  if s = "1" ∨ s = "t" ∨ s = "T" ∨ s = "TRUE" ∨ s = "true" ∨ s = "True" then
    some true
  else if s = "0" ∨ s = "f" ∨ s = "F" ∨ s = "FALSE" ∨ s = "false" ∨ s = "False" then
    some false
  else none

/-! ### `strconv.ParseFloat`

Go's grammar for `ParseFloat(s, 64)`:
optional sign, then either a case-insensitive special (`inf`, `infinity`;
`nan` only without a sign), or a mantissa (decimal digits with at most one
dot, at least one digit; or a `0x`/`0X` hexadecimal mantissa which then
requires a binary exponent) and an optional `e`/`E` (decimal) or mandatory
`p`/`P` (hexadecimal) exponent.  Underscores are accepted exactly when the
whole string is a valid Go literal (`underscoreOK`).  Values whose
magnitude reaches `2^1024` overflow to an out-of-range error.  The numeric
value is modelled exactly as a rational. -/

/-- ASCII lower-casing of a string (Go's `lower` used in float parsing). -/
def asciiLower (s : String) : String :=
  String.mk (s.data.map Char.toLower)

/-- Hexadecimal digit test. -/
def isHexDigit (c : Char) : Bool :=
  isDecDigit c ∨ ('a' ≤ c ∧ c ≤ 'f') ∨ ('A' ≤ c ∧ c ≤ 'F')

/-- Numeric value of a hexadecimal digit character. -/
def hexVal (c : Char) : Nat :=
  if isDecDigit c then digitVal c
  else if 'a' ≤ c ∧ c ≤ 'f' then c.toNat - 'a'.toNat + 10
  else c.toNat - 'A'.toNat + 10

/-- Magnitude of a nonempty all-hex-digit character list. -/
def hexToNat (cs : List Char) : Nat :=
  cs.foldl (fun acc c => acc * 16 + hexVal c) 0

/-- Go `strconv`'s `underscoreOK`: underscores must sit between digits (after
an optional sign and optional `0x` base prefix). `saw` tracks the class of the
previous character: `'^'` start, `'0'` digit/base prefix, `'_'` underscore,
`'!'` other. -/
def underscoreOKCore (hex : Bool) : Char → List Char → Bool
  | saw, [] => saw ≠ '_'
  | saw, c :: rest =>
    if isDecDigit c ∨ (hex ∧ isHexDigit c) then underscoreOKCore hex '0' rest
    else if c = '_' then saw = '0' ∧ underscoreOKCore hex '_' rest
    else saw ≠ '_' ∧ underscoreOKCore hex '!' rest

/-- Entry point of `underscoreOK`: skip an optional sign, detect a `0x`/`0X`
prefix, then scan. -/
def underscoreOK (cs : List Char) : Bool :=
  let cs₁ := match cs with
             | '+' :: rest => rest
             | '-' :: rest => rest
             | _ => cs
  match cs₁ with
  | '0' :: x :: rest =>
    if x = 'x' ∨ x = 'X' then underscoreOKCore true '0' rest
    else underscoreOKCore false '^' cs₁
  | _ => underscoreOKCore false '^' cs₁

/-- Collects a run of digits (with interspersed `'_'` dropped — legality of
the underscores is checked separately by `underscoreOK`), returning the
digits and the remaining characters. -/
def takeDigits (hex : Bool) : List Char → List Char × List Char
  | [] => ([], [])
  | c :: rest =>
    if (if hex then isHexDigit c else isDecDigit c) then
      let (ds, rem) := takeDigits hex rest
      (c :: ds, rem)
    else if c = '_' then
      let (ds, rem) := takeDigits hex rest
      (ds, rem)
    else ([], c :: rest)

/-- Parses a mantissa: digits with at most one interior dot.  Returns
`(integer digits, fraction digits, rest)`. -/
def takeMantissa (hex : Bool) (cs : List Char) : List Char × List Char × List Char :=
  let (ip, rest₁) := takeDigits hex cs
  match rest₁ with
  | '.' :: rest₂ =>
    let (fp, rest₃) := takeDigits hex rest₂
    (ip, fp, rest₃)
  | _ => (ip, [], rest₁)

/-- Parses an exponent part after the marker: optional sign then digits.
Returns the signed exponent and the rest, or `none` if no digits follow. -/
def takeExponent (cs : List Char) : Option (Int × List Char) :=
  let (neg, cs₁) := splitSign cs
  let (ds, rest) := takeDigits false cs₁
  if ds = [] then none
  else some (if neg then -(digitsToNat ds : Int) else (digitsToNat ds : Int), rest)

/-- The exact rational value `m / 10^f · 10^e` of a decimal mantissa-exponent
pair, where `f` counts fraction digits (built as a single normalized
rational so that it evaluates by kernel reduction). -/
def decValue (ip fp : List Char) (e : Int) : Rat :=
  let m : Nat := digitsToNat (ip ++ fp)
  let exp : Int := e - fp.length
  if 0 ≤ exp then mkRat (m * 10 ^ exp.toNat) 1
  else mkRat m (10 ^ (-exp).toNat)

/-- The exact rational value of a hexadecimal mantissa (`f` fraction hex
digits, i.e. `4·f` fraction bits) with binary exponent `e`. -/
def hexValue (ip fp : List Char) (e : Int) : Rat :=
  let m : Nat := hexToNat (ip ++ fp)
  let exp : Int := e - 4 * fp.length
  if 0 ≤ exp then mkRat (m * 2 ^ exp.toNat) 1
  else mkRat m (2 ^ (-exp).toNat)

/-- Threshold above which a finite decimal overflows `float64` to an
out-of-range error (`±Inf`): `2^1024`.  (The exact IEEE round-to-infinity
boundary is marginally below this; no claim exercises the boundary.) -/
def float64Overflow (q : Rat) : Bool := q.num.natAbs / q.den ≥ 2 ^ 1024

/-- Go `strconv.ParseFloat(s, 64)`, value carried exactly.  `none` models a
returned error (syntax or out of range). -/
def goParseFloat (s : String) : Option GoFloat :=
  if s = "" then none
  else
    let (neg, body) := splitSign s.data
    let lowBody := asciiLower (String.mk body)
    -- specials: optional sign before inf/infinity; nan only unsigned
    if lowBody = "inf" ∨ lowBody = "infinity" then some (.inf neg)
    else if asciiLower s = "nan" then some .nan
    else if ¬ underscoreOK s.data then none
    else
      match body with
      | '0' :: x :: rest =>
        if x = 'x' ∨ x = 'X' then
          -- hexadecimal mantissa, mandatory p/P exponent
          let (ip, fp, rest₁) := takeMantissa true rest
          if ip = [] ∧ fp = [] then none
          else
            match rest₁ with
            | p :: rest₂ =>
              if p = 'p' ∨ p = 'P' then
                match takeExponent rest₂ with
                | some (e, []) =>
                  let q := hexValue ip fp e
                  if float64Overflow q then none
                  else some (.finite (if neg then -q else q))
                | _ => none
              else none
            | [] => none
        else
          -- decimal starting with 0
          match
            (let (ip, fp, rest₁) := takeMantissa false body
             if ip = [] ∧ fp = [] then none
             else
               match rest₁ with
               | [] => some (decValue ip fp 0)
               | eMark :: rest₂ =>
                 if eMark = 'e' ∨ eMark = 'E' then
                   match takeExponent rest₂ with
                   | some (e, []) => some (decValue ip fp e)
                   | _ => none
                 else none) with
          | some q =>
            if float64Overflow q then none
            else some (.finite (if neg then -q else q))
          | none => none
      | _ =>
        match
          (let (ip, fp, rest₁) := takeMantissa false body
           if ip = [] ∧ fp = [] then none
           else
             match rest₁ with
             | [] => some (decValue ip fp 0)
             | eMark :: rest₂ =>
               if eMark = 'e' ∨ eMark = 'E' then
                 match takeExponent rest₂ with
                 | some (e, []) => some (decValue ip fp e)
                 | _ => none
               else none) with
        | some q =>
          if float64Overflow q then none
          else some (.finite (if neg then -q else q))
        | none => none

/-! ## `convertValueToType` (parser.go:640-663) -/

/-- `convertValueToType`: try `strconv.Atoi`, then `strconv.ParseInt(·,10,64)`
(redundant on a 64-bit platform but present in the source), then
`strconv.ParseFloat(·,64)`, then `strconv.ParseBool`, and fall back to the
original string. -/
def convertValueToType (value : String) : JVal :=
  match goAtoi value with
  | some intVal => .int intVal
  | none =>
    match goParseInt64 value with
    | some int64Val => .int int64Val
    | none =>
      match goParseFloat value with
      | some floatVal => .float floatVal
      | none =>
        match goParseBool value with
        | some boolVal => .bool boolVal
        | none => .str value

/-! ## Association lists

Go maps are modelled as association lists with assignment-overwrite
(`updateA`) keeping first-insertion order, and first-match lookup
(`lookupA`).  Keys stay distinct, so lookup agrees with Go map access. -/

/-- Go map read `m[k]` (the found value, `none` when absent). -/
def lookupA {α β : Type} [DecidableEq α] : List (α × β) → α → Option β
  | [], _ => none
  | (k', v) :: rest, k => if k' = k then some v else lookupA rest k

/-- Go map assignment `m[k] = v`: overwrite in place, or append a new entry. -/
def updateA {α β : Type} [DecidableEq α] : List (α × β) → α → β → List (α × β)
  | [], k, v => [(k, v)]
  | (k', v') :: rest, k, v =>
    if k' = k then (k, v) :: rest else (k', v') :: updateA rest k v

/-! ## The key grammar (parser.go:504-546, 741-744) -/

/-- `isNumeric` (parser.go:741): whether `strconv.Atoi` succeeds — note this
accepts an optional leading sign, not just digits. -/
def isNumeric (s : String) : Bool := (goAtoi s).isSome

/-- `parsedKey` (parser.go:28): a parsed form key. -/
structure parsedKey where
  baseKey : String := ""
  isArray : Bool := false
  isNested : Bool := false
  arrayIndex : Int := 0
  path : List String := []
  deriving DecidableEq

/-- Index of the first occurrence of a character (`strings.Index`, which
returns -1 — here `none` — when absent). -/
def idxOfChar : List Char → Char → Option Nat
  | [], _ => none
  | c :: rest, t => if c = t then some 0 else (idxOfChar rest t).map (· + 1)

/-- Splits a character list at the first occurrence of `t`, returning the
part before and the part after (neither containing that occurrence). -/
def breakAtChar : List Char → Char → Option (List Char × List Char)
  | [], _ => none
  | c :: rest, t =>
    if c = t then some ([], rest)
    else (breakAtChar rest t).map fun p => (c :: p.1, p.2)

def findBracketGroupsAux : Nat → List Char → List String
  | 0, _ => []
  | _, [] => []
  | fuel + 1, c :: rest =>
    if c = '[' then
      match breakAtChar rest ']' with
      | some (content, after) =>
        if content = [] then findBracketGroupsAux fuel rest
        else String.mk content :: findBracketGroupsAux fuel after
      | none => []
    else findBracketGroupsAux fuel rest

/-- Entry point: the scan consumes at least one character per step, so
`cs.length` steps of fuel always suffice (the fuel is a structural-recursion
device only; every recursive call strictly shrinks the character list). -/
def findBracketGroups (cs : List Char) : List String :=
  findBracketGroupsAux cs.length cs

/-- `strings.Contains(s, c)` for a single-character pattern. -/
def containsChar (s : String) (c : Char) : Bool := s.data.contains c

/-- `parseKeyStructure` (parser.go:505): parse one raw key.  `none` models
the Go runtime panic `key[:-1]` (slice bounds out of range) that occurs when
the key contains `']'` but no `'['` (`strings.Index` returns -1). -/
def parseKeyStructure (key : String) : Option parsedKey :=
  if ¬ containsChar key '[' ∧ ¬ containsChar key ']' then
    some { baseKey := key }
  else
    match idxOfChar key.data '[' with
    | none => none
    | some openBracket =>
      let baseKey := String.mk (key.data.take openBracket)
      match findBracketGroups (key.data.drop openBracket) with
      | [] => some { baseKey := baseKey }
      | firstMatch :: restMatches =>
        if isNumeric firstMatch then
          some { baseKey := baseKey, isArray := true,
                 arrayIndex := (goAtoi firstMatch).getD 0, path := restMatches }
        else
          some { baseKey := baseKey, isNested := true,
                 path := firstMatch :: restMatches }

/-! ## The group tree (parser.go:16-25, 548-637) -/

mutual
/-- `keyGroup` (parser.go:17): a group of related form keys.  `value` is the
`interface{}` field (`none` = Go `nil`); `children` (`map[string]*keyGroup`)
and `arrayData` (`map[int]*keyGroup`) are inlined association maps so that
the whole tree is a mutual inductive (a `nil` Go map and an empty one are
indistinguishable for the reads the code performs). -/
inductive KeyGroup where
  | mk (baseKey : String) (value : Option JVal) (isSimple isArray isObject : Bool)
       (children : ChildMap) (arrayData : ArrMap)

/-- `map[string]*keyGroup` as an insertion-ordered association map. -/
inductive ChildMap where
  | nil
  | cons (key : String) (g : KeyGroup) (rest : ChildMap)

/-- `map[int]*keyGroup` as an insertion-ordered association map. -/
inductive ArrMap where
  | nil
  | cons (idx : Int) (g : KeyGroup) (rest : ArrMap)
end

def KeyGroup.baseKey : KeyGroup → String
  | .mk b _ _ _ _ _ _ => b

def KeyGroup.value : KeyGroup → Option JVal
  | .mk _ v _ _ _ _ _ => v

def KeyGroup.isSimple : KeyGroup → Bool
  | .mk _ _ s _ _ _ _ => s

def KeyGroup.isArray : KeyGroup → Bool
  | .mk _ _ _ a _ _ _ => a

def KeyGroup.isObject : KeyGroup → Bool
  | .mk _ _ _ _ o _ _ => o

def KeyGroup.children : KeyGroup → ChildMap
  | .mk _ _ _ _ _ c _ => c

def KeyGroup.arrayData : KeyGroup → ArrMap
  | .mk _ _ _ _ _ _ a => a

/-- Go map read `children[k]`. -/
def lookupC : ChildMap → String → Option KeyGroup
  | .nil, _ => none
  | .cons k' g rest, k => if k' = k then some g else lookupC rest k

/-- Go map assignment `children[k] = g`. -/
def updateC : ChildMap → String → KeyGroup → ChildMap
  | .nil, k, g => .cons k g .nil
  | .cons k' g' rest, k, g =>
    if k' = k then .cons k g rest else .cons k' g' (updateC rest k g)

/-- Go map read `arrayData[i]`. -/
def lookupArr : ArrMap → Int → Option KeyGroup
  | .nil, _ => none
  | .cons i' g rest, i => if i' = i then some g else lookupArr rest i

/-- Go map assignment `arrayData[i] = g`. -/
def updateArr : ArrMap → Int → KeyGroup → ArrMap
  | .nil, i, g => .cons i g .nil
  | .cons i' g' rest, i, g =>
    if i' = i then .cons i g rest else .cons i' g' (updateArr rest i g)

/-- `len(m) == 0` for the children map. -/
def ChildMap.isEmpty : ChildMap → Bool
  | .nil => true
  | .cons _ _ _ => false

/-- `len(m) == 0` for the array-data map. -/
def ArrMap.isEmpty : ArrMap → Bool
  | .nil => true
  | .cons _ _ _ => false

/-- The keys of an array-data map, in insertion order. -/
def ArrMap.keys : ArrMap → List Int
  | .nil => []
  | .cons i _ rest => i :: rest.keys

/-- The `maxIndex` loop of `buildArrayFromGroup` (parser.go:672-677):
starts at 0 and takes the maximum of the stored indices. -/
def ArrMap.maxIndex (m : ArrMap) : Int :=
  go m 0
where
  go : ArrMap → Int → Int
    | .nil, acc => acc
    | .cons i _ rest, acc => go rest (if i > acc then i else acc)

/-- A freshly created `&keyGroup{baseKey: b, children: make(...), ...}` (the
zero value of every other field). -/
def newGroup (b : String) : KeyGroup := .mk b none false false false .nil .nil

/-- Assignment `group.value = v; group.isSimple = true` with a raw string. -/
def KeyGroup.setRawScalar : KeyGroup → String → KeyGroup
  | .mk b _ _ a o c ad, v => .mk b (some (.str v)) true a o c ad

/-- Assignment `group.value = convertValueToType(v); group.isSimple = true`. -/
def KeyGroup.setTypedScalar : KeyGroup → String → KeyGroup
  | .mk b _ _ a o c ad, v => .mk b (some (convertValueToType v)) true a o c ad

/-- Assignment `group.isArray = true`. -/
def KeyGroup.setIsArrayTrue : KeyGroup → KeyGroup
  | .mk b v s _ o c ad => .mk b v s true o c ad

/-- Assignment `group.isObject = true`. -/
def KeyGroup.setIsObjectTrue : KeyGroup → KeyGroup
  | .mk b v s a _ c ad => .mk b v s a true c ad

/-- Assignment `group.children = c`. -/
def KeyGroup.setChildren : KeyGroup → ChildMap → KeyGroup
  | .mk b v s a o _ ad, c => .mk b v s a o c ad

/-- Assignment `group.arrayData = ad`. -/
def KeyGroup.setArrayData : KeyGroup → ArrMap → KeyGroup
  | .mk b v s a o c _, ad => .mk b v s a o c ad

/-- `fmt.Sprintf("%d", i)`. -/
def goSprintfD (i : Int) : String := toString i

/-- `addNestedToGroup` (parser.go:582): fold one `(path, value)` pair into a
group, recursing on the path; numeric segments go to `arrayData` (marking
the child `isArray` before recursing), other segments to `children`; the
leaf stores the type-coerced value. -/
def addNestedToGroup (group : KeyGroup) (path : List String) (value : String) :
    KeyGroup :=
  match path with
  | [] => group.setTypedScalar value
  | currentKey :: remainingPath =>
    if isNumeric currentKey then
      let index : Int := (goAtoi currentKey).getD 0
      let child := (lookupArr group.arrayData index).getD (newGroup currentKey)
      let child := child.setIsArrayTrue
      let child := addNestedToGroup child remainingPath value
      group.setArrayData (updateArr group.arrayData index child)
    else
      let child := (lookupC group.children currentKey).getD (newGroup currentKey)
      let child :=
        match remainingPath with
        | [] => child.setTypedScalar value
        | _ => addNestedToGroup child remainingPath value
      group.setChildren (updateC group.children currentKey child)

/-- `addToArrayGroup` (parser.go:549): record a value under
`group.arrayData[parsed.arrayIndex]`; an empty remaining path stores the raw
string directly (`arrayItem.value = value`, uncoerced). -/
def addToArrayGroup (group : KeyGroup) (parsed : parsedKey) (value : String) :
    KeyGroup :=
  let arrayItem := (lookupArr group.arrayData parsed.arrayIndex).getD
    (newGroup (goSprintfD parsed.arrayIndex))
  let arrayItem :=
    match parsed.path with
    | [] => arrayItem.setRawScalar value
    | _ => addNestedToGroup arrayItem parsed.path value
  group.setArrayData (updateArr group.arrayData parsed.arrayIndex arrayItem)

/-- `addToObjectGroup` (parser.go:570): an empty path stores the raw string
on the group itself, otherwise recurse into the nested structure. -/
def addToObjectGroup (group : KeyGroup) (parsed : parsedKey) (value : String) :
    KeyGroup :=
  match parsed.path with
  | [] => group.setRawScalar value
  | _ => addNestedToGroup group parsed.path value

/-- One iteration of the loop in `groupKeysByStructure` (parser.go:468-499):
skip empty value slices, parse the key (propagating the panic), and fold the
first value into the base-key group. -/
def groupStep (groups : List (String × KeyGroup)) (key : String)
    (valueSlice : List String) : Option (List (String × KeyGroup)) :=
  match valueSlice with
  | [] => some groups
  | value :: _ =>
    match parseKeyStructure key with
    | none => none
    | some parsed =>
      let group := (lookupA groups parsed.baseKey).getD (newGroup parsed.baseKey)
      let group :=
        if parsed.isArray then
          addToArrayGroup group.setIsArrayTrue parsed value
        else if parsed.isNested then
          addToObjectGroup group.setIsObjectTrue parsed value
        else
          group.setRawScalar value
      some (updateA groups parsed.baseKey group)

/-- `groupKeysByStructure` (parser.go:465): fold every entry of the decoded
corpus into one group per base key.  `none` models a panic inside
`parseKeyStructure`. -/
def groupKeysByStructure (values : List (String × List String)) :
    Option (List (String × KeyGroup)) :=
  values.foldlM (fun groups kv => groupStep groups kv.1 kv.2) []

/-! ## Materialization (parser.go:666-738) -/

mutual
/-- `buildArrayFromGroup` (parser.go:666): an empty `arrayData` gives an
empty array; otherwise a slice of length `maxIndex+1` is allocated (slots
`nil`, i.e. JSON `null`) and each stored index is filled.  `none` models the
Go runtime panic `result[index]` when a stored index is negative (it cannot
exceed `maxIndex`). -/
def buildArrayFromGroup (g : KeyGroup) : Option (List JVal) :=
  match g with
  | .mk _ _ _ _ _ _ ad =>
    if ad.isEmpty then some []
    else fillArraySlots ad (List.replicate (ad.maxIndex + 1).toNat .null)

/-- The `for index, arrayItem := range group.arrayData` loop of
`buildArrayFromGroup` (parser.go:683-694); the `result[index]` assignment
panics (`none`) outside bounds, and an item that is neither simple nor a
parent leaves its slot `nil`. -/
def fillArraySlots : ArrMap → List JVal → Option (List JVal)
  | .nil, result => some result
  | .cons index arrayItem rest, result =>
    if arrayItem.isSimple then
      if 0 ≤ index ∧ index.toNat < result.length then
        fillArraySlots rest (result.set index.toNat (arrayItem.value.getD .null))
      else none
    else if ¬ arrayItem.children.isEmpty ∨ ¬ arrayItem.arrayData.isEmpty then
      if ¬ arrayItem.arrayData.isEmpty then
        match buildArrayFromGroup arrayItem with
        | none => none
        | some l =>
          if 0 ≤ index ∧ index.toNat < result.length then
            fillArraySlots rest (result.set index.toNat (.arr l))
          else none
      else
        match buildObjectFromGroup arrayItem with
        | none => none
        | some o =>
          if 0 ≤ index ∧ index.toNat < result.length then
            fillArraySlots rest (result.set index.toNat (.obj o))
          else none
    else fillArraySlots rest result

/-- `buildObjectFromGroup` (parser.go:700): a `"value"` entry for a simple
group, then the named children, then the array children under their
`Sprintf("%d", ·)` keys. -/
def buildObjectFromGroup (g : KeyGroup) : Option (List (String × JVal)) :=
  match g with
  | .mk _ v s _ _ ch ad =>
    match buildObjChildren ch (if s then [("value", v.getD .null)] else []) with
    | none => none
    | some m => buildObjArrayData ad m

/-- The `for key, child := range group.children` loop (parser.go:709-720). -/
def buildObjChildren : ChildMap → List (String × JVal) → Option (List (String × JVal))
  | .nil, result => some result
  | .cons key child rest, result =>
    if child.isSimple then
      buildObjChildren rest (updateA result key (child.value.getD .null))
    else if ¬ child.children.isEmpty ∨ ¬ child.arrayData.isEmpty then
      if ¬ child.arrayData.isEmpty then
        match buildArrayFromGroup child with
        | none => none
        | some l => buildObjChildren rest (updateA result key (.arr l))
      else
        match buildObjectFromGroup child with
        | none => none
        | some o => buildObjChildren rest (updateA result key (.obj o))
    else buildObjChildren rest result

/-- The `for key, child := range group.arrayData` loop (parser.go:723-735),
writing under the decimal string of the index. -/
def buildObjArrayData : ArrMap → List (String × JVal) → Option (List (String × JVal))
  | .nil, result => some result
  | .cons idx child rest, result =>
    if child.isSimple then
      buildObjArrayData rest (updateA result (goSprintfD idx) (child.value.getD .null))
    else if ¬ child.children.isEmpty ∨ ¬ child.arrayData.isEmpty then
      if ¬ child.arrayData.isEmpty then
        match buildArrayFromGroup child with
        | none => none
        | some l => buildObjArrayData rest (updateA result (goSprintfD idx) (.arr l))
      else
        match buildObjectFromGroup child with
        | none => none
        | some o => buildObjArrayData rest (updateA result (goSprintfD idx) (.obj o))
    else buildObjArrayData rest result
end

/-- `parseFormFlexibly` (parser.go:441): group the corpus, then materialize
each base-key group — a simple group contributes its stored `value`
directly (the raw string, uncoerced), an array group its built array, and
any other group its built object.  `none` models a panic. -/
def parseFormFlexibly (values : List (String × List String)) :
    Option (List (String × JVal)) :=
  match groupKeysByStructure values with
  | none => none
  | some keyGroups =>
    keyGroups.foldlM
      (fun result p =>
        if p.2.isSimple then some (updateA result p.1 (p.2.value.getD .null))
        else if p.2.isArray then
          (buildArrayFromGroup p.2).map fun l => updateA result p.1 (.arr l)
        else
          (buildObjectFromGroup p.2).map fun o => updateA result p.1 (.obj o))
      []

/-- The per-slot dispatch of `buildArrayFromGroup` (parser.go:684-693) as a
value: `some (some v)` assigns `v` to the slot, `some none` leaves the slot
at its placeholder, `none` is an inner panic. -/
def slotBuildValue (item : KeyGroup) : Option (Option JVal) :=
  if item.isSimple then some (some (item.value.getD .null))
  else if ¬ item.children.isEmpty ∨ ¬ item.arrayData.isEmpty then
    if ¬ item.arrayData.isEmpty then
      (buildArrayFromGroup item).map fun l => some (.arr l)
    else
      (buildObjectFromGroup item).map fun o => some (.obj o)
  else some none

/-- The concatenated bracket groups `[s₁][s₂]…[sₙ]` as characters. -/
def bracketSegs : List String → List Char
  | [] => []
  | s :: rest => '[' :: (s.data ++ ']' :: bracketSegs rest)

/-- The canonical well-formed bracket key `base[s₁][s₂]…[sₙ]`. -/
def bracketKey (base : String) (segs : List String) : String :=
  String.mk (base.data ++ bracketSegs segs)

/-! ## `net/url` decoding -/

/-- `strings.Split(s, sep)` for a one-character separator. -/
def splitOnChar : List Char → Char → List (List Char)
  | [], _ => [[]]
  | c :: rest, t =>
    if c = t then [] :: splitOnChar rest t
    else
      match splitOnChar rest t with
      | [] => [[c]]
      | g :: gs => (c :: g) :: gs

/-- Whether `pat` occurs as a contiguous substring (`strings.Contains`). -/
def containsSubAux (pat : List Char) : List Char → Bool
  | [] => pat.isPrefixOf ([] : List Char)
  | c :: rest => pat.isPrefixOf (c :: rest) ∨ containsSubAux pat rest

/-- `strings.Contains(s, pat)`. -/
def containsSubstr (s pat : String) : Bool := containsSubAux pat.data s.data

/-- Splits at the first occurrence of `pat` (none if absent), returning the
parts before and after the occurrence. -/
def cutSubAux (pat : List Char) : List Char → Option (List Char × List Char)
  | [] => if pat.isPrefixOf ([] : List Char) then some ([], []) else none
  | c :: rest =>
    if pat.isPrefixOf (c :: rest) then some ([], (c :: rest).drop pat.length)
    else (cutSubAux pat rest).map fun p => (c :: p.1, p.2)

/-- `strings.Cut(s, sep)`: `(before, after, found)`. -/
def goCut (s sep : String) : String × String × Bool :=
  match cutSubAux sep.data s.data with
  | some (before, after) => (String.mk before, String.mk after, true)
  | none => (s, "", false)

/-- One percent-decoding pass of Go's `url.QueryUnescape`: `%XY` with two
hex digits becomes the byte `16·X+Y`, `'+'` becomes a space, anything else
is copied; a `'%'` not followed by two hex digits is an `EscapeError`
(`none`). -/
def queryUnescapeAux : List Char → Option (List Char)
  | [] => some []
  | '%' :: a :: b :: rest =>
    if isHexDigit a ∧ isHexDigit b then
      (queryUnescapeAux rest).map (Char.ofNat (hexVal a * 16 + hexVal b) :: ·)
    else none
  | ['%'] => none
  | ['%', _] => none
  | '+' :: rest => (queryUnescapeAux rest).map (' ' :: ·)
  | c :: rest => (queryUnescapeAux rest).map (c :: ·)

/-- `url.QueryUnescape`. -/
def queryUnescape (s : String) : Option String :=
  (queryUnescapeAux s.data).map String.mk

/-- `m[key] = append(m[key], value)` on `url.Values`. -/
def appendValue : List (String × List String) → String → String → List (String × List String)
  | [], k, v => [(k, [v])]
  | (k', vs) :: rest, k, v =>
    if k' = k then (k', vs ++ [v]) :: rest else (k', vs) :: appendValue rest k v

/-- The loop of `url.parseQuery` (Go ≥ 1.17, as required by this module):
split on `'&'`, reject segments containing `';'`, skip empty segments, cut
at the first `'='`, percent-decode both halves, and record the pair; any
failure sets the error flag but the loop continues.  The fuel is a
structural-recursion device; each iteration strictly shrinks the query. -/
def goParseQueryAux : Nat → List Char → List (String × List String) → Bool →
    List (String × List String) × Bool
  | 0, _, m, err => (m, err)
  | _, [], m, err => (m, err)
  | fuel + 1, query, m, err =>
    let (key, rest, _) := goCut (String.mk query) "&"
    if containsChar key ';' then goParseQueryAux fuel rest.data m true
    else if key = "" then goParseQueryAux fuel rest.data m err
    else
      let (key₁, value, _) := goCut key "="
      match queryUnescape key₁ with
      | none => goParseQueryAux fuel rest.data m true
      | some key₂ =>
        match queryUnescape value with
        | none => goParseQueryAux fuel rest.data m true
        | some value₁ => goParseQueryAux fuel rest.data (appendValue m key₂ value₁) err

/-- `url.ParseQuery`: the decoded corpus and whether an error was reported
(callers here discard the partially-filled map on error). -/
def goParseQuery (s : String) : List (String × List String) × Bool :=
  goParseQueryAux (s.length + 1) s.data [] false

/-! ## Public entry points (parser.go:397-438, 746-850) -/

/-- Outcome of a public conversion: a value, a returned `error`, or a
runtime panic. -/
inductive GoResult (α : Type) where
  | ok (a : α)
  | goError
  | panicked

/-- `FormToMap` (parser.go:423): decode with `url.ParseQuery` (an error
aborts), then build the dynamic map. -/
def goFormToMap (formData : String) : GoResult (List (String × JVal)) :=
  let (values, errFlag) := goParseQuery formData
  if errFlag then .goError
  else
    match parseFormFlexibly values with
    | none => .panicked
    | some m => .ok m

/-- `FormToJSON` (parser.go:398): decodes exactly like `FormToMap` and hands
the same map to `json.MarshalIndent`, a deterministic injective encoding.
The function is modelled by the map it marshals.  (The encoder's own
failure on NaN / infinite floats is not modelled; every theorem below
evaluates this definition only on inputs without such values.) -/
def goFormToJSONMap (formData : String) : GoResult (List (String × JVal)) :=
  goFormToMap formData

/-- One (pattern → replacement) substitution pass, all non-overlapping
occurrences left to right (`strings.ReplaceAll`).  Fuel is a structural
device; patterns used are nonempty, so each step consumes a character. -/
def replaceAllAux (pat rep : List Char) : Nat → List Char → List Char
  | 0, cs => cs
  | _, [] => []
  | fuel + 1, c :: rest =>
    if pat.isPrefixOf (c :: rest) then
      rep ++ replaceAllAux pat rep fuel ((c :: rest).drop pat.length)
    else c :: replaceAllAux pat rep fuel rest

/-- `strings.ReplaceAll(s, pat, rep)`. -/
def goReplaceAll (s pat rep : String) : String :=
  String.mk (replaceAllAux pat.data rep.data s.length s.data)

/-- `unescapeUnicode` (parser.go:816): literal substitution of seven
`\uXXXX` escape sequences.  The Go code iterates a map in random order; the
patterns are pairwise non-overlapping and no replacement character occurs
inside any pattern, so the order of the passes does not matter, and the
source-listed order is used. -/
def unescapeUnicode (data : String) : String :=
  let r₁ := goReplaceAll data "\\u0026" "&"
  let r₂ := goReplaceAll r₁ "\\u0027" "\x27"
  let r₃ := goReplaceAll r₂ "\\u0022" "\""
  let r₄ := goReplaceAll r₃ "\\u003C" "<"
  let r₅ := goReplaceAll r₄ "\\u003E" ">"
  let r₆ := goReplaceAll r₅ "\\u002B" "+"
  goReplaceAll r₆ "\\u0020" " "

/-- Go's `unicode.IsSpace` restricted to the ASCII range (the inputs of
every theorem below are ASCII). -/
def goIsSpace (c : Char) : Bool :=
  c = ' ' ∨ c = '\t' ∨ c = '\n' ∨ c = '\x0b' ∨ c = '\x0c' ∨ c = '\r'

/-- `strings.TrimSpace`. -/
def goTrimSpace (s : String) : String :=
  String.mk (((s.data.dropWhile goIsSpace).reverse.dropWhile goIsSpace).reverse)

/-- `convertMultiLineToForm` (parser.go:765): split into lines, trim each,
skip blanks, split each at the first `" = "` (lines without one are
dropped), and join the trimmed `key=value` pairs with `'&'`. -/
def convertMultiLineToForm (multiLineData : String) : String :=
  let lines := splitOnChar multiLineData.data '\n'
  let formParts := lines.filterMap fun lineCs =>
    let line := goTrimSpace (String.mk lineCs)
    if line = "" then none
    else
      match cutSubAux " = ".data line.data with
      | some (k, v) =>
        some (goTrimSpace (String.mk k) ++ "=" ++ goTrimSpace (String.mk v))
      | none => none
  String.intercalate "&" formParts

/-- `normalizeFormData` (parser.go:837): rewrite multi-line `key = value`
input into standard form data; everything else passes through unchanged. -/
def normalizeFormData (data : String) : String :=
  if containsSubstr data "\n" ∧ containsSubstr data " = " then
    convertMultiLineToForm data
  else if containsSubstr data "&" then data
  else data

/-- `FormToMapEncoded` (parser.go:796): unescape the Unicode sequences, URL
decode, then `FormToMap` — with **no** multi-line normalization. -/
def goFormToMapEncoded (encodedData : String) : GoResult (List (String × JVal)) :=
  let unescapedData := unescapeUnicode encodedData
  match queryUnescape unescapedData with
  | none => .goError
  | some decodedData => goFormToMap decodedData

/-- `FormToJSONEncoded` (parser.go:747): unescape the Unicode sequences, URL
decode, apply `normalizeFormData`, then `FormToJSON` (modelled, like
`FormToJSON`, by the map handed to the serializer). -/
def goFormToJSONEncodedMap (encodedData : String) : GoResult (List (String × JVal)) :=
  let unescapedData := unescapeUnicode encodedData
  match queryUnescape unescapedData with
  | none => .goError
  | some decodedData => goFormToJSONMap (normalizeFormData decodedData)

/-! ## The struct binder (parser.go:58-361; identical in
`parseform/parser.go`) -/

/-- `strings.HasPrefix`. -/
def strHasPrefix (s pre : String) : Bool := pre.data.isPrefixOf s.data

/-- `strings.HasSuffix`. -/
def strHasSuffix (s suf : String) : Bool := suf.data.isSuffixOf s.data

/-- `strings.TrimSuffix`. -/
def goTrimSuffix (s suffix : String) : String :=
  if strHasSuffix s suffix then String.mk (s.data.take (s.length - suffix.length))
  else s

/-- The scalar field kinds `setValue` (parser.go:339) can handle; a
destination of any other kind is left untouched by it. -/
inductive ScalarKind where
  | stringK
  | intK
  | uintK
  | floatK
  | boolK
  deriving DecidableEq

/-- A scalar Go value held by a destination field. -/
inductive GoScalar where
  | vStr (s : String)
  | vInt (n : Int)
  | vUint (n : Nat)
  | vFloat (f : GoFloat)
  | vBool (b : Bool)
  deriving DecidableEq

/-- The Go zero value of each scalar kind (what `reflect.New` yields). -/
def zeroOf : ScalarKind → GoScalar
  | .stringK => .vStr ""
  | .intK => .vInt 0
  | .uintK => .vUint 0
  | .floatK => .vFloat (.finite 0)
  | .boolK => .vBool false

/-- `setValue` (parser.go:339): parse the string according to the field's
kind and assign on success, leaving the field untouched otherwise.  The Go
function returns `nil` on **every** path, so the `if err != nil` checks at
its call sites can never fire. -/
def setValue (kind : ScalarKind) (field : GoScalar) (value : String) : GoScalar :=
  match kind with
  | .stringK => .vStr value
  | .intK =>
    match goParseInt64 value with
    | some intVal => .vInt intVal
    | none => field
  | .uintK =>
    match goParseUint64 value with
    | some uintVal => .vUint uintVal
    | none => field
  | .floatK =>
    match goParseFloat value with
    | some floatVal => .vFloat floatVal
    | none => field
  | .boolK =>
    match goParseBool value with
    | some boolVal => .vBool boolVal
    | none => field

/-- `findFieldData` (parser.go:104): collect, per field, the exact-match
entry under its own name and, for every key of the form `fieldName[...`,
the entry under the key **stripped of `fieldName[`** (note: the stripped
key keeps the matching `']'`, e.g. `items[0][id]` yields `0][id]`).  Only
the first value of each slice is read.  An empty result models the `nil`
return. -/
def findFieldData (values : List (String × List String)) (fieldName : String) :
    List (String × String) :=
  values.foldl
    (fun result p =>
      match p.2 with
      | [] => result
      | v :: _ =>
        if p.1 = fieldName then updateA result p.1 v
        else if strHasPrefix p.1 (fieldName ++ "[") then
          updateA result (String.mk (p.1.data.drop (fieldName.length + 1))) v
        else result)
    []

/-- One struct field of a reflected schema: Go field name, `form` tag
(empty means absent), scalar kind. -/
structure StructField where
  name : String
  tag : String
  kind : ScalarKind
  deriving DecidableEq

/-- `parseStructFromMap` (parser.go:195): each field's tag (or, absent one,
its name) is looked up **exactly** in the field-data map and `setValue`
applied on a hit; `setValue` never errors, so the `continue` is dead and no
field is ever skipped. -/
def parseStructFromMap (schema : List StructField) (fieldData : List (String × String)) :
    List (String × GoScalar) :=
  schema.map fun f =>
    let fieldName := if f.tag ≠ "" then f.tag else f.name
    match lookupA fieldData fieldName with
    | some value => (f.name, setValue f.kind (zeroOf f.kind) value)
    | none => (f.name, zeroOf f.kind)

/-- Slice element types distinguished by the `switch elemType.Kind()` in
`parseSlice` (parser.go:269-285): structs, strings, ints; any other element
kind leaves its slot at the zero value. -/
inductive SliceElem where
  | structE (schema : List StructField)
  | stringE
  | intE

/-- A slice element value. -/
inductive ElemVal where
  | structV (fields : List (String × GoScalar))
  | stringV (s : String)
  | intV (n : Int)
  deriving DecidableEq

/-- The zero value of a slice element. -/
def zeroElem : SliceElem → ElemVal
  | .structE schema => .structV (schema.map fun f => (f.name, zeroOf f.kind))
  | .stringE => .stringV ""
  | .intE => .intV 0

/-- The index-grouping loop of `parseSlice` (parser.go:225-246): a key must
contain both `'['` and `']'`; it is split on `'['`, **`parts[1]`** (with a
`']'` trimmed) must parse as an integer index, and the tail parts rejoined
with `'['` form the nested key (empty ⇒ recorded under `"value"`). -/
def parseSliceIndexed (fieldData : List (String × String)) :
    List (Int × List (String × String)) :=
  fieldData.foldl
    (fun indexedData p =>
      if containsChar p.1 '[' ∧ containsChar p.1 ']' then
        let parts := (splitOnChar p.1.data '[').map String.mk
        if parts.length ≥ 2 then
          let indexStr := goTrimSuffix ((parts.get? 1).getD "") "]"
          match goAtoi indexStr with
          | some index =>
            let nestedKey := String.intercalate "[" (parts.drop 2)
            let data := (lookupA indexedData index).getD []
            let data :=
              if nestedKey ≠ "" then updateA data nestedKey p.2
              else updateA data "value" p.2
            updateA indexedData index data
          | none => indexedData
        else indexedData
      else indexedData)
    []

/-- The element-filling loop of `parseSlice` (parser.go:265-287): indices at
or above the slice length are skipped by the `index < slice.Len()` guard,
but a **negative** index passes it and `slice.Index(index)` panics
(`none`). -/
def fillSliceElems (elemType : SliceElem) :
    List (Int × List (String × String)) → List ElemVal → Option (List ElemVal)
  | [], slice => some slice
  | (index, data) :: rest, slice =>
    if index < (slice.length : Int) then
      if 0 ≤ index then
        let newElem :=
          match elemType with
          | .structE schema => ElemVal.structV (parseStructFromMap schema data)
          | .stringE =>
            match lookupA data "value" with
            | some value => ElemVal.stringV value
            | none => ElemVal.stringV ""
          | .intE =>
            match lookupA data "value" with
            | some value =>
              match goParseInt64 value with
              | some intVal => ElemVal.intV intVal
              | none => ElemVal.intV 0
            | none => ElemVal.intV 0
        fillSliceElems elemType rest (slice.set index.toNat newElem)
      else none
    else fillSliceElems elemType rest slice

/-- `parseSlice` (parser.go:221): group the (already-prefix-stripped) field
data by leading index, and if any group was found, build and assign a dense
slice of length `maxIndex+1`.  `.ok none` models `indexedData` being empty,
in which case the destination field is never assigned. -/
def parseSlice (elemType : SliceElem) (fieldData : List (String × String)) :
    GoResult (Option (List ElemVal)) :=
  let indexedData := parseSliceIndexed fieldData
  if indexedData.isEmpty then .ok none
  else
    let maxIndex := indexedData.foldl (fun m p => if p.1 > m then p.1 else m) 0
    match fillSliceElems elemType indexedData
        (List.replicate (maxIndex + 1).toNat (zeroElem elemType)) with
    | none => .panicked
    | some slice => .ok (some slice)

/-- The map-data loop of `parseMap` (parser.go:300-306): keys of the form
`fieldName[mapKey]` — matched against the **already stripped** keys the
caller passes in — contribute `mapKey ↦ value`. -/
def parseMapData (fieldData : List (String × String)) (fieldName : String) :
    List (String × String) :=
  fieldData.foldl
    (fun mapData p =>
      if strHasPrefix p.1 (fieldName ++ "[") ∧ strHasSuffix p.1 "]" then
        let mapKey := String.mk
          ((p.1.data.drop (fieldName.length + 1)).take
            (p.1.length - (fieldName.length + 1) - 1))
        updateA mapData mapKey p.2
      else mapData)
    []

/-- `parseMap` (parser.go:296): coerce each `mapKey`/value pair with
`setValue` and insert.  `setValue` never errors, so the two
`continue`-on-error guards are dead: a failed coercion inserts the zero
value instead of skipping the entry.  `none` models an empty `mapData`, in
which case the destination field is never assigned. -/
def parseMap (keyKind elemKind : ScalarKind) (fieldData : List (String × String))
    (fieldName : String) : Option (List (GoScalar × GoScalar)) :=
  let mapData := parseMapData fieldData fieldName
  if mapData.isEmpty then none
  else
    some (mapData.foldl
      (fun newMap p =>
        let keyValue := setValue keyKind (zeroOf keyKind) p.1
        let elemValue := setValue elemKind (zeroOf elemKind) p.2
        updateA newMap keyValue elemValue)
      [])

/-! ## Embedding sanity checks (the worked example of the specification) -/

example :
    goFormToMap "account[subdomain]=example&account[id]=123&leads[0][id]=1&leads[0][tags][0]=urgent" =
      .ok [("account", .obj [("subdomain", .str "example"), ("id", .int 123)]),
           ("leads", .arr [.obj [("id", .int 1), ("tags", .arr [.str "urgent"])]])] := rfl

example : goFormToMap "account%5Bid%5D=123" =
    .ok [("account", .obj [("id", .int 123)])] := rfl

/-! ## General lemmas -/

theorem breakAtChar_snd_lt :
    ∀ cs t a b, breakAtChar cs t = some (a, b) → b.length < cs.length := by
  intro cs
  induction cs with
  | nil => intro t a b h; simp [breakAtChar] at h
  | cons c rest ih =>
    intro t a b h
    simp only [breakAtChar] at h
    split at h
    · cases h; simp
    · match hb : breakAtChar rest t with
      | none => rw [hb] at h; simp at h
      | some q =>
        rw [hb] at h
        simp only [Option.map_some'] at h
        cases h
        have := ih t q.1 q.2 (by rw [hb])
        simp only [List.length_cons]
        omega

/-- All matches of the regular expression `\[([^\]]+)\]` over a character
list (parser.go:521-522): successive non-overlapping leftmost matches; a
group is an `'['`, one or more non-`']'` characters, then `']'`.  An empty
group `[]` fails to match at its `'['` and scanning resumes one character
later. -/

example : parseKeyStructure "age" = some { baseKey := "age" } := rfl
example : parseKeyStructure "a[b][0]" =
    some { baseKey := "a", isNested := true, path := ["b", "0"] } := rfl
example : parseKeyStructure "a[3][b]" =
    some { baseKey := "a", isArray := true, arrayIndex := 3, path := ["b"] } := rfl
example : parseKeyStructure "a[" = some { baseKey := "a" } := rfl
example : parseKeyStructure "a]" = none := rfl

/-! ## Claim theorems -/

/-- C1: the claim states that every corpus that decodes successfully is
converted without raising or panicking, and in particular that a key
containing `']'` but no `'['`, or a bracket group holding a signed integer
such as `[-1]`, degrades to the bare-base-name case.  The code instead
panics on both inputs: `parseKeyStructure` slices `key[:-1]` when
`strings.Index(key, "[")` returns -1, and `buildArrayFromGroup` assigns
`result[-1]` for a negative parsed index.  Both inputs decode successfully
(no percent-escapes), yet `FormToMap` and `FormToJSON` panic instead of
producing a degraded result. -/
theorem c1_generic_conversion_panics :
    goFormToMap "a]=5" = .panicked ∧
    goFormToJSONMap "a]=5" = .panicked ∧
    goFormToMap "a[-1]=5" = .panicked ∧
    goFormToJSONMap "a[-1]=5" = .panicked :=
  ⟨rfl, rfl, rfl, rfl⟩

/-- C3: the claim states that a bracket-free corpus materializes with
type-coerced leaves (`age=25` giving integer 25).  The code only applies
`convertValueToType` to values reaching `addNestedToGroup`; a bare key is
recorded by `groupKeysByStructure` with its raw string
(`group.value = value`), so every leaf of the README's own example stays a
string.  The final conjunct shows the coercion the claim expects would
indeed produce integer 25 had it been applied. -/
theorem c3_bare_keys_stay_raw_strings :
    goFormToMap "age=25&price=99.99&active=true&name=John" =
      .ok [("age", .str "25"), ("price", .str "99.99"),
           ("active", .str "true"), ("name", .str "John")] ∧
    convertValueToType "25" = .int 25 :=
  ⟨rfl, rfl⟩

/-- C2 (counterexample): with both `a=5` and `a[b]=6` in one corpus the
claim expects the materialized `a` to be `{b: 6}`; the code materializes
the raw scalar string `"5"` instead, because `parseFormFlexibly` tests
`group.isSimple` before `group.isObject` and the scalar branch returns the
uncoerced stored value. -/
theorem c2_scalar_vs_children_counterexample :
    parseFormFlexibly [("a", ["5"]), ("a[b]", ["6"])] = some [("a", .str "5")] ∧
    JVal.str "5" ≠ JVal.obj [("b", .int 6)] :=
  ⟨rfl, fun h => JVal.noConfusion h⟩

/-- C7 (counterexample): the claim states a bracket group's content is an
index segment exactly when it is purely digits, with signed contents such
as `-1` or `+7` becoming name segments.  `isNumeric` is `strconv.Atoi`
success, which accepts signs, so `a[-1]` and `a[+7]` are classified as
array indexes (-1 and 7), not as names; and a pure-digit content that
overflows a signed 64-bit integer is classified as a *name*, refuting the
digits-always-index direction as well. -/
theorem c7_segment_classification_counterexample :
    parseKeyStructure "a[-1]" =
      some { baseKey := "a", isArray := true, arrayIndex := -1, path := [] } ∧
    parseKeyStructure "a[-1]" ≠
      some { baseKey := "a", isNested := true, path := ["-1"] } ∧
    parseKeyStructure "a[+7]" =
      some { baseKey := "a", isArray := true, arrayIndex := 7, path := [] } ∧
    parseKeyStructure "a[99999999999999999999]" =
      some { baseKey := "a", isNested := true, path := ["99999999999999999999"] } :=
  ⟨rfl, by decide, rfl, rfl⟩

/-- C8: the claim states the binder turns `items[0][id]=1&items[1][id]=2`
into a dense two-element slice with recursively bound elements.  But
`findFieldData` hands `parseSlice` keys already stripped of `items[`
(`0][id]`), while `parseSlice` still assumes full keys: splitting `0][id]`
on `'['` makes `parts[1] = "id]"`, whose trimmed form `id` fails
`strconv.Atoi`, so every well-formed key is skipped, `indexedData` stays
empty and the field is never assigned. -/
theorem c8_slice_binding_never_fires :
    findFieldData [("items[0][id]", ["1"]), ("items[1][id]", ["2"])] "items" =
      [("0][id]", "1"), ("1][id]", "2")] ∧
    parseSlice (.structE [⟨"ID", "id", .intK⟩])
      (findFieldData [("items[0][id]", ["1"]), ("items[1][id]", ["2"])] "items") =
      .ok none :=
  ⟨rfl, rfl⟩

/-- C9: the claim states map fields are populated from `field[mapKey]=v`
entries, skipping entries whose key or value fails coercion.  Neither
happens: (1) `parseMap` re-matches the prefix `fieldName[` against keys
`findFieldData` has already stripped of exactly that prefix, so `mapData`
is always empty for well-formed input and the field is never assigned;
(2) even on data in the shape `parseMap` expects, `setValue` returns `nil`
unconditionally, so an uncoercible `mapKey` is inserted under the zero key
rather than skipped. -/
theorem c9_map_binding_never_fires :
    findFieldData [("m[abc]", ["5"])] "m" = [("abc]", "5")] ∧
    parseMap .stringK .stringK (findFieldData [("m[abc]", ["5"])] "m") "m" = none ∧
    parseMap .intK .intK [("m[abc]", "5")] "m" = some [(.vInt 0, .vInt 5)] :=
  ⟨rfl, rfl, rfl⟩

/-- C10: the claim states `FormToJSONEncoded` and `FormToMapEncoded` agree
(same success, and the JSON of the former is the encoding of the latter's
map), in particular on multi-line `key = value` input.  Only the JSON path
calls `normalizeFormData`, so on the multi-line input `"a = 1\nb = 2"` the
JSON path marshals `{a: "1", b: "2"}` while the map path hands the raw text
to `url.ParseQuery` and produces `{"a ": " 1\nb = 2"}` — different maps,
hence different JSON under the injective encoder. -/
theorem c10_encoded_entry_points_diverge :
    goFormToJSONEncodedMap "a = 1\nb = 2" = .ok [("a", .str "1"), ("b", .str "2")] ∧
    goFormToMapEncoded "a = 1\nb = 2" = .ok [("a ", .str " 1\nb = 2")] ∧
    ("a" : String) ≠ "a " :=
  ⟨rfl, rfl, by decide⟩

/-- C4: the leaf coercion of the generic path tries integer, then float,
then boolean, and falls back to the original string, stopping at the first
success; hence `"0"` and `"1"` coerce to integers 0 and 1 (never booleans),
`"123"` to integer 123, `"1.5"` to float 1.5, and `"true"` to boolean
true.  (`convertValueToType` makes two integer attempts — `Atoi` and
`ParseInt(·,10,64)` — which coincide on the 64-bit platforms modelled
here, so the priority collapses to the claimed order.) -/
theorem c4_coercion_priority :
    (∀ s n, goAtoi s = some n → convertValueToType s = .int n) ∧
    (∀ s f, goAtoi s = none → goParseFloat s = some f →
      convertValueToType s = .float f) ∧
    (∀ s b, goAtoi s = none → goParseFloat s = none → goParseBool s = some b →
      convertValueToType s = .bool b) ∧
    (∀ s, goAtoi s = none → goParseFloat s = none → goParseBool s = none →
      convertValueToType s = .str s) ∧
    (∀ s n b, goAtoi s = some n → convertValueToType s ≠ .bool b) ∧
    convertValueToType "123" = .int 123 ∧
    convertValueToType "1.5" = .float (.finite (mkRat 3 2)) ∧
    convertValueToType "true" = .bool true ∧
    convertValueToType "0" = .int 0 ∧
    convertValueToType "1" = .int 1 := by
  refine ⟨?_, ?_, ?_, ?_, ?_, rfl, rfl, rfl, rfl, rfl⟩
  · intro s n h
    simp [convertValueToType, h]
  · intro s f h1 h2
    have h1' : goParseInt64 s = none := h1
    simp [convertValueToType, goAtoi, h1', h2]
  · intro s b h1 h2 h3
    have h1' : goParseInt64 s = none := h1
    simp [convertValueToType, goAtoi, h1', h2, h3]
  · intro s h1 h2 h3
    have h1' : goParseInt64 s = none := h1
    simp [convertValueToType, goAtoi, h1', h2, h3]
  · intro s n b h
    simp [convertValueToType, h]

/-- C4 witness: the priority theorem applied at the concrete string `"7"`. -/
theorem c4_coercion_priority_witness : convertValueToType "7" = .int 7 :=
  c4_coercion_priority.1 "7" 7 rfl

/-! ### C6 supporting lemmas -/

theorem groupStep_take_one (acc : List (String × KeyGroup)) (key : String)
    (vs : List String) :
    groupStep acc key (vs.take 1) = groupStep acc key vs := by
  cases vs <;> rfl

theorem foldlM_groupStep_take_one :
    ∀ (values : List (String × List String)) (acc : List (String × KeyGroup)),
      (values.map fun p => (p.1, p.2.take 1)).foldlM
          (fun groups kv => groupStep groups kv.1 kv.2) acc =
        values.foldlM (fun groups kv => groupStep groups kv.1 kv.2) acc := by
  intro values
  induction values with
  | nil => intro acc; rfl
  | cons p rest ih =>
    intro acc
    simp only [List.map_cons, List.foldlM_cons]
    rw [groupStep_take_one]
    cases groupStep acc p.1 p.2 with
    | none => rfl
    | some acc' => simpa using ih acc'

theorem groupKeysByStructure_take_one (values : List (String × List String)) :
    groupKeysByStructure (values.map fun p => (p.1, p.2.take 1)) =
      groupKeysByStructure values :=
  foldlM_groupStep_take_one values []

theorem findFieldData_take_one :
    ∀ (values : List (String × List String)) (fieldName : String)
      (acc : List (String × String)),
      (values.map fun p => (p.1, p.2.take 1)).foldl
          (fun result p =>
            match p.2 with
            | [] => result
            | v :: _ =>
              if p.1 = fieldName then updateA result p.1 v
              else if strHasPrefix p.1 (fieldName ++ "[") then
                updateA result (String.mk (p.1.data.drop (fieldName.length + 1))) v
              else result) acc =
        values.foldl
          (fun result p =>
            match p.2 with
            | [] => result
            | v :: _ =>
              if p.1 = fieldName then updateA result p.1 v
              else if strHasPrefix p.1 (fieldName ++ "[") then
                updateA result (String.mk (p.1.data.drop (fieldName.length + 1))) v
              else result) acc := by
  intro values fieldName
  induction values with
  | nil => intro acc; rfl
  | cons p rest ih =>
    intro acc
    simp only [List.map_cons, List.foldl_cons]
    cases hp : p.2 with
    | nil => exact ih acc
    | cons v t => exact ih _

/-- C6: for every corpus, only the first value in each key's value sequence
affects the output: the generic path (`groupKeysByStructure` reads
`valueSlice[0]`) and the struct-binding path (`findFieldData` reads
`valueSlice[0]`) both yield the same result after truncating every value
slice to its first element, so additional values of a repeated key have no
effect. -/
theorem c6_only_first_value_used (values : List (String × List String))
    (fieldName : String) :
    parseFormFlexibly (values.map fun p => (p.1, p.2.take 1)) =
      parseFormFlexibly values ∧
    findFieldData (values.map fun p => (p.1, p.2.take 1)) fieldName =
      findFieldData values fieldName := by
  constructor
  · unfold parseFormFlexibly
    rw [groupKeysByStructure_take_one]
  · unfold findFieldData
    exact findFieldData_take_one values fieldName []

/-! ### C5 supporting lemmas -/

theorem lookupArr_eq_none_of_not_mem :
    ∀ (m : ArrMap) (i : Int), i ∉ m.keys → lookupArr m i = none
  | .nil, _, _ => rfl
  | .cons i' _ rest, i, hi => by
    simp only [ArrMap.keys, List.mem_cons] at hi
    push_neg at hi
    simp only [lookupArr]
    rw [if_neg (fun h => hi.1 h.symm)]
    exact lookupArr_eq_none_of_not_mem rest i hi.2

theorem mem_keys_of_lookupArr :
    ∀ (m : ArrMap) (i : Int) (g : KeyGroup),
      lookupArr m i = some g → i ∈ m.keys
  | .nil, i, g, h => by simp [lookupArr] at h
  | .cons i' g' rest, i, g, h => by
    simp only [lookupArr] at h
    simp only [ArrMap.keys, List.mem_cons]
    by_cases he : i' = i
    · exact Or.inl he.symm
    · rw [if_neg he] at h
      exact Or.inr (mem_keys_of_lookupArr rest i g h)

theorem maxIndex_go_le :
    ∀ (m : ArrMap) (acc : Int),
      acc ≤ ArrMap.maxIndex.go m acc ∧
      ∀ i, i ∈ m.keys → i ≤ ArrMap.maxIndex.go m acc
  | .nil, acc =>
    ⟨le_refl acc, by intro i hi; simp [ArrMap.keys] at hi⟩
  | .cons i' g rest, acc => by
    simp only [ArrMap.maxIndex.go, ArrMap.keys, List.mem_cons]
    constructor
    · calc acc ≤ (if i' > acc then i' else acc) := by split <;> omega
        _ ≤ _ := (maxIndex_go_le rest _).1
    · intro i hi
      rcases hi with rfl | hi
      · calc i ≤ (if i > acc then i else acc) := by split <;> omega
          _ ≤ _ := (maxIndex_go_le rest _).1
      · exact (maxIndex_go_le rest _).2 i hi

theorem fillArraySlots_spec :
    ∀ (m : ArrMap) (res res' : List JVal),
      fillArraySlots m res = some res' →
      (∀ i, i ∈ m.keys → 0 ≤ i ∧ i.toNat < res.length) →
      m.keys.Nodup →
      res'.length = res.length ∧
      (∀ i item, lookupArr m i = some item →
        ∃ sv, slotBuildValue item = some sv ∧
          res'[i.toNat]? = (match sv with
                            | some v => some v
                            | none => res[i.toNat]?)) ∧
      (∀ j : Nat, lookupArr m (j : Int) = none → res'[j]? = res[j]?)
  | .nil, res, res' => by
    intro hfill _ _
    simp only [fillArraySlots, Option.some.injEq] at hfill
    subst hfill
    refine ⟨rfl, ?_, ?_⟩
    · intro i item h; simp [lookupArr] at h
    · intro j _; rfl
  | .cons index item rest, res, res' => by
    intro hfill hb hnd
    have hidx := hb index (by simp [ArrMap.keys])
    have hnotrest : index ∉ rest.keys := by
      simpa [ArrMap.keys] using (List.nodup_cons.mp (by simpa [ArrMap.keys] using hnd)).1
    have hndrest : rest.keys.Nodup :=
      (List.nodup_cons.mp (by simpa [ArrMap.keys] using hnd)).2
    have hbrest : ∀ i, i ∈ rest.keys → 0 ≤ i ∧ i.toNat < res.length := by
      intro i hi; exact hb i (by simp [ArrMap.keys, hi])
    simp only [fillArraySlots] at hfill
    by_cases hs : item.isSimple
    · rw [if_pos hs, if_pos ⟨hidx.1, hidx.2⟩] at hfill
      have ihh := fillArraySlots_spec rest _ _ hfill
        (by intro i hi; simpa [List.length_set] using hbrest i hi) hndrest
      refine ⟨by simpa [List.length_set] using ihh.1, ?_, ?_⟩
      · intro i item' hlk
        simp only [lookupArr] at hlk
        by_cases he : index = i
        · subst he
          rw [if_pos rfl] at hlk
          cases hlk
          refine ⟨some (item.value.getD .null), by simp [slotBuildValue, hs], ?_⟩
          have := ihh.2.2 index.toNat
            (by rw [Int.toNat_of_nonneg hidx.1]
                exact lookupArr_eq_none_of_not_mem rest index hnotrest)
          rw [this, List.getElem?_set_self hidx.2]
        · rw [if_neg he] at hlk
          obtain ⟨sv, hsv, hres⟩ := ihh.2.1 i item' hlk
          refine ⟨sv, hsv, ?_⟩
          have hipos := (hbrest i (mem_keys_of_lookupArr rest i item' hlk)).1
          have hne : index.toNat ≠ i.toNat := by omega
          rw [hres, List.getElem?_set_ne hne]
      · intro j hj
        simp only [lookupArr] at hj
        by_cases he : index = (j : Int)
        · rw [if_pos he] at hj; cases hj
        · rw [if_neg he] at hj
          have hne : index.toNat ≠ j := by omega
          rw [ihh.2.2 j hj, List.getElem?_set_ne hne]
    · rw [if_neg hs] at hfill
      by_cases hch : ¬ item.children.isEmpty ∨ ¬ item.arrayData.isEmpty
      · rw [if_pos hch] at hfill
        by_cases had : ¬ item.arrayData.isEmpty
        · rw [if_pos had] at hfill
          cases hbuild : buildArrayFromGroup item with
          | none => rw [hbuild] at hfill; cases hfill
          | some l =>
            simp only [hbuild] at hfill
            rw [if_pos ⟨hidx.1, hidx.2⟩] at hfill
            have ihh := fillArraySlots_spec rest _ _ hfill
              (by intro i hi; simpa [List.length_set] using hbrest i hi) hndrest
            refine ⟨by simpa [List.length_set] using ihh.1, ?_, ?_⟩
            · intro i item' hlk
              simp only [lookupArr] at hlk
              by_cases he : index = i
              · subst he
                rw [if_pos rfl] at hlk
                cases hlk
                refine ⟨some (.arr l), by simp [slotBuildValue, hs, hch, had, hbuild], ?_⟩
                have := ihh.2.2 index.toNat
                  (by rw [Int.toNat_of_nonneg hidx.1]
                      exact lookupArr_eq_none_of_not_mem rest index hnotrest)
                rw [this, List.getElem?_set_self hidx.2]
              · rw [if_neg he] at hlk
                obtain ⟨sv, hsv, hres⟩ := ihh.2.1 i item' hlk
                refine ⟨sv, hsv, ?_⟩
                have hipos := (hbrest i (mem_keys_of_lookupArr rest i item' hlk)).1
                have hne : index.toNat ≠ i.toNat := by omega
                rw [hres, List.getElem?_set_ne hne]
            · intro j hj
              simp only [lookupArr] at hj
              by_cases he : index = (j : Int)
              · rw [if_pos he] at hj; cases hj
              · rw [if_neg he] at hj
                have hne : index.toNat ≠ j := by omega
                rw [ihh.2.2 j hj, List.getElem?_set_ne hne]
        · rw [if_neg had] at hfill
          cases hbuild : buildObjectFromGroup item with
          | none => rw [hbuild] at hfill; cases hfill
          | some o =>
            simp only [hbuild] at hfill
            rw [if_pos ⟨hidx.1, hidx.2⟩] at hfill
            have ihh := fillArraySlots_spec rest _ _ hfill
              (by intro i hi; simpa [List.length_set] using hbrest i hi) hndrest
            refine ⟨by simpa [List.length_set] using ihh.1, ?_, ?_⟩
            · intro i item' hlk
              simp only [lookupArr] at hlk
              by_cases he : index = i
              · subst he
                rw [if_pos rfl] at hlk
                cases hlk
                have hch' : item.children.isEmpty = false := by
                  rcases hch with h | h
                  · simpa using h
                  · exact absurd h had
                have had' : item.arrayData.isEmpty = true := by simpa using had
                refine ⟨some (.obj o), by simp [slotBuildValue, hs, hch', had', hbuild], ?_⟩
                have := ihh.2.2 index.toNat
                  (by rw [Int.toNat_of_nonneg hidx.1]
                      exact lookupArr_eq_none_of_not_mem rest index hnotrest)
                rw [this, List.getElem?_set_self hidx.2]
              · rw [if_neg he] at hlk
                obtain ⟨sv, hsv, hres⟩ := ihh.2.1 i item' hlk
                refine ⟨sv, hsv, ?_⟩
                have hipos := (hbrest i (mem_keys_of_lookupArr rest i item' hlk)).1
                have hne : index.toNat ≠ i.toNat := by omega
                rw [hres, List.getElem?_set_ne hne]
            · intro j hj
              simp only [lookupArr] at hj
              by_cases he : index = (j : Int)
              · rw [if_pos he] at hj; cases hj
              · rw [if_neg he] at hj
                have hne : index.toNat ≠ j := by omega
                rw [ihh.2.2 j hj, List.getElem?_set_ne hne]
      · rw [if_neg hch] at hfill
        have ihh := fillArraySlots_spec rest _ _ hfill hbrest hndrest
        refine ⟨ihh.1, ?_, ?_⟩
        · intro i item' hlk
          simp only [lookupArr] at hlk
          by_cases he : index = i
          · subst he
            rw [if_pos rfl] at hlk
            cases hlk
            have hpair : item.children.isEmpty = true ∧ item.arrayData.isEmpty = true := by
              push_neg at hch
              simpa using hch
            refine ⟨none, by simp [slotBuildValue, hs, hpair.1, hpair.2], ?_⟩
            have := ihh.2.2 index.toNat
              (by rw [Int.toNat_of_nonneg hidx.1]
                  exact lookupArr_eq_none_of_not_mem rest index hnotrest)
            exact this
          · rw [if_neg he] at hlk
            exact ihh.2.1 i item' hlk
        · intro j hj
          simp only [lookupArr] at hj
          by_cases he : index = (j : Int)
          · rw [if_pos he] at hj; cases hj
          · rw [if_neg he] at hj
            exact ihh.2.2 j hj

/-- C5: for any group whose (distinct, nonnegative-indexed) `arrayData` is
nonempty, a successful `buildArrayFromGroup` yields a dense sequence of
length `maxIndex+1` in which every supplied index holds its materialized
value (per the `slotBuildValue` dispatch) and every unsupplied index holds
the `null` placeholder. -/
theorem c5_dense_array_materialization :
    ∀ (g : KeyGroup) (l : List JVal),
      buildArrayFromGroup g = some l →
      g.arrayData.isEmpty = false →
      (∀ i, i ∈ g.arrayData.keys → 0 ≤ i) →
      g.arrayData.keys.Nodup →
      l.length = (g.arrayData.maxIndex + 1).toNat ∧
      (∀ i item, lookupArr g.arrayData i = some item →
        ∃ sv, slotBuildValue item = some sv ∧ l[i.toNat]? = some (sv.getD .null)) ∧
      (∀ j : Nat, j < l.length → lookupArr g.arrayData (j : Int) = none →
        l[j]? = some .null) := by
  intro g l hbuild hne hpos hnd
  cases g with
  | mk b v si ia io ch ad =>
    simp only [buildArrayFromGroup, KeyGroup.arrayData] at hbuild hne hpos hnd ⊢
    rw [hne] at hbuild
    simp only [Bool.false_eq_true, if_false] at hbuild
    have hmax0 : (0 : Int) ≤ ad.maxIndex := (maxIndex_go_le ad 0).1
    have hbnd : ∀ i, i ∈ ad.keys → 0 ≤ i ∧
        i.toNat < (List.replicate (ad.maxIndex + 1).toNat JVal.null).length := by
      intro i hi
      have h1 := hpos i hi
      have h2 : i ≤ ad.maxIndex := by
        simpa [ArrMap.maxIndex] using (maxIndex_go_le ad 0).2 i hi
      refine ⟨h1, ?_⟩
      simp only [List.length_replicate]
      omega
    obtain ⟨hlen, hsup, hunsup⟩ := fillArraySlots_spec ad _ l hbuild hbnd hnd
    have hlen' : l.length = (ad.maxIndex + 1).toNat := by
      simpa [List.length_replicate] using hlen
    refine ⟨hlen', ?_, ?_⟩
    · intro i item hlk
      obtain ⟨sv, hsv, hres⟩ := hsup i item hlk
      refine ⟨sv, hsv, ?_⟩
      cases sv with
      | some v => simpa using hres
      | none =>
        have hi := hbnd i (mem_keys_of_lookupArr ad i item hlk)
        rw [hres, List.getElem?_replicate,
          if_pos (by simpa [List.length_replicate] using hi.2)]
        rfl
    · intro j hj hlk
      rw [hunsup j hlk, List.getElem?_replicate,
        if_pos (by simp only [List.length_replicate] at hlen; omega)]

/-- C5 witness: the dense-array theorem applied to the group built from the
single-entry corpus `k[3]=7` (supplied only at index 3): a length-4
sequence with placeholders at indices 0–2; the first conjunct shows the
end-to-end materialization. -/
theorem c5_dense_array_materialization_witness :
    goFormToMap "k[3]=7" = .ok [("k", .arr [.null, .null, .null, .str "7"])] ∧
    (([.null, .null, .null, .str "7"] : List JVal).length =
      (((KeyGroup.mk "k" none false true false .nil
          (.cons 3 (KeyGroup.mk "3" (some (.str "7")) true false false .nil .nil)
            .nil)).arrayData.maxIndex + 1).toNat) ∧
     (∀ i item,
        lookupArr (KeyGroup.mk "k" none false true false .nil
          (.cons 3 (KeyGroup.mk "3" (some (.str "7")) true false false .nil .nil)
            .nil)).arrayData i = some item →
        ∃ sv, slotBuildValue item = some sv ∧
          ([.null, .null, .null, .str "7"] : List JVal)[i.toNat]? =
            some (sv.getD .null)) ∧
     (∀ j : Nat, j < ([.null, .null, .null, .str "7"] : List JVal).length →
        lookupArr (KeyGroup.mk "k" none false true false .nil
          (.cons 3 (KeyGroup.mk "3" (some (.str "7")) true false false .nil .nil)
            .nil)).arrayData (j : Int) = none →
        ([.null, .null, .null, .str "7"] : List JVal)[j]? = some .null)) :=
  ⟨rfl,
   c5_dense_array_materialization
     (KeyGroup.mk "k" none false true false .nil
       (.cons 3 (KeyGroup.mk "3" (some (.str "7")) true false false .nil .nil)
         .nil))
     [.null, .null, .null, .str "7"] rfl rfl
     (by intro i hi
         simp only [KeyGroup.arrayData, ArrMap.keys, List.mem_cons,
           List.not_mem_nil, or_false] at hi
         omega)
     (by simp [KeyGroup.arrayData, ArrMap.keys])⟩

/-! ### C7 supporting lemmas -/

theorem idxOfChar_append_self :
    ∀ (l : List Char) (c : Char) (tail : List Char), c ∉ l →
      idxOfChar (l ++ c :: tail) c = some l.length
  | [], c, tail, _ => by simp [idxOfChar]
  | x :: rest, c, tail, h => by
    have hx : x ≠ c := fun hcontra => h (hcontra ▸ List.mem_cons_self x rest)
    have hrest : c ∉ rest := fun hc => h (List.mem_cons_of_mem x hc)
    show (if x = c then some 0
          else (idxOfChar (rest ++ c :: tail) c).map (· + 1)) =
      some (x :: rest).length
    rw [if_neg hx, idxOfChar_append_self rest c tail hrest]
    rfl

theorem breakAtChar_append_self :
    ∀ (l : List Char) (t : Char) (tail : List Char), t ∉ l →
      breakAtChar (l ++ t :: tail) t = some (l, tail)
  | [], t, tail, _ => by simp [breakAtChar]
  | x :: rest, t, tail, h => by
    have hx : x ≠ t := fun hcontra => h (hcontra ▸ List.mem_cons_self x rest)
    have hrest : t ∉ rest := fun hc => h (List.mem_cons_of_mem x hc)
    show (if x = t then some ([], rest ++ t :: tail)
          else (breakAtChar (rest ++ t :: tail) t).map fun p => (x :: p.1, p.2)) =
      some (x :: rest, tail)
    rw [if_neg hx, breakAtChar_append_self rest t tail hrest]
    rfl

theorem findBracketGroupsAux_fuel :
    ∀ (f : Nat) (cs : List Char), cs.length ≤ f →
      findBracketGroupsAux f cs = findBracketGroups cs
  | f, [], _ => by cases f <;> rfl
  | f + 1, c :: rest, h => by
    have hrest : rest.length ≤ f := by simpa using h
    show findBracketGroupsAux (f + 1) (c :: rest) =
      findBracketGroupsAux (rest.length + 1) (c :: rest)
    simp only [findBracketGroupsAux]
    by_cases hc : c = '['
    · rw [if_pos hc, if_pos hc]
      cases hb : breakAtChar rest ']' with
      | none => rfl
      | some p =>
        obtain ⟨content, after⟩ := p
        have hafter : after.length ≤ f := by
          have := breakAtChar_snd_lt rest ']' content after hb
          omega
        have hafter' : after.length ≤ rest.length := by
          have := breakAtChar_snd_lt rest ']' content after hb
          omega
        show (if content = [] then findBracketGroupsAux f rest
              else String.mk content :: findBracketGroupsAux f after) =
          (if content = [] then findBracketGroupsAux rest.length rest
           else String.mk content :: findBracketGroupsAux rest.length after)
        by_cases hcon : content = []
        · rw [if_pos hcon, if_pos hcon,
            findBracketGroupsAux_fuel f rest hrest]
          rfl
        · rw [if_neg hcon, if_neg hcon,
            findBracketGroupsAux_fuel f after hafter,
            findBracketGroupsAux_fuel rest.length after hafter']
    · rw [if_neg hc, if_neg hc, findBracketGroupsAux_fuel f rest hrest]
      rfl
termination_by f _ _ => f

theorem findBracketGroups_bracketSegs :
    ∀ (segs : List String), (∀ s, s ∈ segs → s.data ≠ [] ∧ ']' ∉ s.data) →
      findBracketGroups (bracketSegs segs) = segs
  | [], _ => rfl
  | seg :: rest, h => by
    have hseg := h seg (List.mem_cons_self seg rest)
    have hrest : ∀ s, s ∈ rest → s.data ≠ [] ∧ ']' ∉ s.data :=
      fun s hs => h s (List.mem_cons_of_mem seg hs)
    show findBracketGroupsAux _ _ = _
    simp only [bracketSegs, List.length_cons, findBracketGroupsAux, if_pos rfl,
      breakAtChar_append_self seg.data ']' (bracketSegs rest) hseg.2]
    rw [if_neg hseg.1]
    rw [findBracketGroupsAux_fuel _ _ (by simp; omega),
      findBracketGroups_bracketSegs rest hrest]
    rfl

theorem lookupArr_updateArr_self :
    ∀ (m : ArrMap) (i : Int) (g : KeyGroup),
      lookupArr (updateArr m i g) i = some g
  | .nil, i, g => by simp [updateArr, lookupArr]
  | .cons i' g' rest, i, g => by
    simp only [updateArr]
    by_cases he : i' = i
    · rw [if_pos he]; simp [lookupArr]
    · rw [if_neg he]
      simp only [lookupArr, if_neg he]
      exact lookupArr_updateArr_self rest i g

theorem lookupC_updateC_self :
    ∀ (m : ChildMap) (k : String) (g : KeyGroup),
      lookupC (updateC m k g) k = some g
  | .nil, k, g => by simp [updateC, lookupC]
  | .cons k' g' rest, k, g => by
    simp only [updateC]
    by_cases he : k' = k
    · rw [if_pos he]; simp [lookupC]
    · rw [if_neg he]
      simp only [lookupC, if_neg he]
      exact lookupC_updateC_self rest k g

theorem KeyGroup.children_setArrayData (g : KeyGroup) (ad : ArrMap) :
    (g.setArrayData ad).children = g.children := by
  cases g; rfl

theorem KeyGroup.arrayData_setChildren (g : KeyGroup) (ch : ChildMap) :
    (g.setChildren ch).arrayData = g.arrayData := by
  cases g; rfl

/-- C7 (amended): a bracket group's content is classified as an array-index
segment exactly when `strconv.Atoi` accepts it — an optionally signed run
of decimal digits whose value fits in a signed 64-bit integer — and as an
object-key (name) segment otherwise; in particular signed contents such as
`-1` or `+7` become indexes, not names.  Part one settles the first group
(`parseKeyStructure`); parts two and three settle the later groups
(`addNestedToGroup` sends Atoi-accepted segments to `arrayData` and all
others to `children`). -/
theorem c7_segment_classification_amended :
    (∀ (base c : String) (rest : List String),
      '[' ∉ base.data →
      (∀ s, s ∈ c :: rest → s.data ≠ [] ∧ ']' ∉ s.data) →
      parseKeyStructure (bracketKey base (c :: rest)) =
        some (if isNumeric c then
                { baseKey := base, isArray := true,
                  arrayIndex := (goAtoi c).getD 0, path := rest }
              else
                { baseKey := base, isNested := true, path := c :: rest })) ∧
    (∀ (g : KeyGroup) (seg : String) (rest : List String) (v : String),
      isNumeric seg = true →
        (addNestedToGroup g (seg :: rest) v).children = g.children ∧
        lookupArr (addNestedToGroup g (seg :: rest) v).arrayData
          ((goAtoi seg).getD 0) ≠ none) ∧
    (∀ (g : KeyGroup) (seg : String) (rest : List String) (v : String),
      isNumeric seg = false →
        (addNestedToGroup g (seg :: rest) v).arrayData = g.arrayData ∧
        lookupC (addNestedToGroup g (seg :: rest) v).children seg ≠ none) := by
  refine ⟨?_, ?_, ?_⟩
  · intro base c rest hbase hsegs
    have hkey : (bracketKey base (c :: rest)).data =
        base.data ++ '[' :: (c.data ++ ']' :: bracketSegs rest) := rfl
    have hmem : '[' ∈ (bracketKey base (c :: rest)).data := by
      rw [hkey]; exact List.mem_append_right _ (List.mem_cons_self _ _)
    have hcontains : containsChar (bracketKey base (c :: rest)) '[' = true := by
      simp only [containsChar]
      exact List.elem_eq_true_of_mem hmem
    unfold parseKeyStructure
    rw [if_neg (by simp [hcontains])]
    rw [hkey, idxOfChar_append_self base.data '[' _ hbase]
    have htake : (base.data ++ '[' :: (c.data ++ ']' :: bracketSegs rest)).take
        base.data.length = base.data := List.take_left _ _
    have hdrop : (base.data ++ '[' :: (c.data ++ ']' :: bracketSegs rest)).drop
        base.data.length = '[' :: (c.data ++ ']' :: bracketSegs rest) :=
      List.drop_left _ _
    have hgroups : findBracketGroups ('[' :: (c.data ++ ']' :: bracketSegs rest)) =
        c :: rest := findBracketGroups_bracketSegs (c :: rest) hsegs
    simp only [htake, hdrop, hgroups]
    by_cases hnum : isNumeric c
    · simp [hnum]
    · simp [hnum]
  · intro g seg rest v hnum
    simp only [addNestedToGroup, if_pos hnum]
    constructor
    · exact KeyGroup.children_setArrayData g _
    · cases g
      simp only [KeyGroup.setArrayData, KeyGroup.arrayData]
      rw [lookupArr_updateArr_self]
      simp
  · intro g seg rest v hnum
    simp only [addNestedToGroup, if_neg (by simp [hnum] : ¬ isNumeric seg = true)]
    constructor
    · exact KeyGroup.arrayData_setChildren g _
    · cases g
      simp only [KeyGroup.setChildren, KeyGroup.children]
      rw [lookupC_updateC_self]
      simp

/-- C7 witness: the amended classification applied to the concrete signed
content `-1` (string `a[-1]`), which `Atoi` accepts, yielding an index
segment. -/
theorem c7_segment_classification_amended_witness :
    parseKeyStructure (bracketKey "a" ["-1"]) =
      some { baseKey := "a", isArray := true, arrayIndex := -1, path := [] } :=
  c7_segment_classification_amended.1 "a" "-1" [] (by decide) (by decide)

/-! ### C2 supporting lemmas -/

theorem lookupA_updateA_self {α β : Type} [DecidableEq α] :
    ∀ (l : List (α × β)) (k : α) (v : β), lookupA (updateA l k v) k = some v := by
  intro l
  induction l with
  | nil => intro k v; simp [updateA, lookupA]
  | cons p rest ih =>
    intro k v
    simp only [updateA]
    by_cases he : p.1 = k
    · rw [if_pos he]; simp [lookupA]
    · rw [if_neg he]
      simp only [lookupA, if_neg he]
      exact ih k v

theorem lookupA_updateA_ne {α β : Type} [DecidableEq α] :
    ∀ (l : List (α × β)) (k k' : α) (v : β), k' ≠ k →
      lookupA (updateA l k' v) k = lookupA l k := by
  intro l
  induction l with
  | nil => intro k k' v h; simp [updateA, lookupA, if_neg h]
  | cons p rest ih =>
    intro k k' v h
    simp only [updateA]
    by_cases he : p.1 = k'
    · rw [if_pos he]
      simp only [lookupA, if_neg h, if_neg (he ▸ h : ¬ p.1 = k)]
    · rw [if_neg he]
      simp only [lookupA]
      by_cases he2 : p.1 = k
      · rw [if_pos he2, if_pos he2]
      · rw [if_neg he2, if_neg he2]
        exact ih k k' v h

theorem mem_map_fst_updateA {α β : Type} [DecidableEq α] :
    ∀ (l : List (α × β)) (k x : α) (v : β),
      x ∈ (updateA l k v).map Prod.fst → x ∈ l.map Prod.fst ∨ x = k := by
  intro l
  induction l with
  | nil => intro k x v h; simp [updateA] at h; exact Or.inr h
  | cons p rest ih =>
    intro k x v h
    simp only [updateA] at h
    by_cases he : p.1 = k
    · rw [if_pos he] at h
      simp only [List.map_cons, List.mem_cons] at h ⊢
      rcases h with h | h
      · exact Or.inr h
      · exact Or.inl (Or.inr h)
    · rw [if_neg he] at h
      simp only [List.map_cons, List.mem_cons] at h ⊢
      rcases h with h | h
      · exact Or.inl (Or.inl h)
      · rcases ih k x v h with h2 | h2
        · exact Or.inl (Or.inr h2)
        · exact Or.inr h2

theorem nodup_map_fst_updateA {α β : Type} [DecidableEq α] :
    ∀ (l : List (α × β)) (k : α) (v : β),
      (l.map Prod.fst).Nodup → ((updateA l k v).map Prod.fst).Nodup := by
  intro l
  induction l with
  | nil => intro k v _; simp [updateA]
  | cons p rest ih =>
    intro k v h
    simp only [List.map_cons, List.nodup_cons] at h
    simp only [updateA]
    by_cases he : p.1 = k
    · rw [if_pos he]
      simp only [List.map_cons, List.nodup_cons]
      exact ⟨he ▸ h.1, h.2⟩
    · rw [if_neg he]
      simp only [List.map_cons, List.nodup_cons]
      refine ⟨?_, ih k v h.2⟩
      intro hc
      rcases mem_map_fst_updateA rest k p.1 v hc with h2 | h2
      · exact h.1 h2
      · exact he h2

theorem KeyGroup.isSimple_setRawScalar (g : KeyGroup) (v : String) :
    (g.setRawScalar v).isSimple = true := by cases g; rfl

theorem KeyGroup.value_setRawScalar (g : KeyGroup) (v : String) :
    (g.setRawScalar v).value = some (.str v) := by cases g; rfl

theorem KeyGroup.isSimple_setIsArrayTrue (g : KeyGroup) :
    g.setIsArrayTrue.isSimple = g.isSimple := by cases g; rfl

theorem KeyGroup.value_setIsArrayTrue (g : KeyGroup) :
    g.setIsArrayTrue.value = g.value := by cases g; rfl

theorem KeyGroup.isSimple_setIsObjectTrue (g : KeyGroup) :
    g.setIsObjectTrue.isSimple = g.isSimple := by cases g; rfl

theorem KeyGroup.value_setIsObjectTrue (g : KeyGroup) :
    g.setIsObjectTrue.value = g.value := by cases g; rfl

theorem KeyGroup.isSimple_setArrayData (g : KeyGroup) (ad : ArrMap) :
    (g.setArrayData ad).isSimple = g.isSimple := by cases g; rfl

theorem KeyGroup.value_setArrayData (g : KeyGroup) (ad : ArrMap) :
    (g.setArrayData ad).value = g.value := by cases g; rfl

theorem KeyGroup.isSimple_setChildren (g : KeyGroup) (ch : ChildMap) :
    (g.setChildren ch).isSimple = g.isSimple := by cases g; rfl

theorem KeyGroup.value_setChildren (g : KeyGroup) (ch : ChildMap) :
    (g.setChildren ch).value = g.value := by cases g; rfl

/-- `addToArrayGroup` only reassigns `arrayData`, so it does not disturb the
scalar facet of the group. -/
theorem addToArrayGroup_preserves (g : KeyGroup) (p : parsedKey) (v : String) :
    (addToArrayGroup g p v).isSimple = g.isSimple ∧
    (addToArrayGroup g p v).value = g.value := by
  unfold addToArrayGroup
  exact ⟨KeyGroup.isSimple_setArrayData _ _, KeyGroup.value_setArrayData _ _⟩

/-- `addNestedToGroup` with a nonempty path only reassigns `children` or
`arrayData`. -/
theorem addNestedToGroup_cons_preserves (g : KeyGroup) (s : String)
    (rest : List String) (v : String) :
    (addNestedToGroup g (s :: rest) v).isSimple = g.isSimple ∧
    (addNestedToGroup g (s :: rest) v).value = g.value := by
  unfold addNestedToGroup
  by_cases hn : isNumeric s
  · rw [if_pos hn]
    exact ⟨KeyGroup.isSimple_setArrayData _ _, KeyGroup.value_setArrayData _ _⟩
  · rw [if_neg hn]
    exact ⟨KeyGroup.isSimple_setChildren _ _, KeyGroup.value_setChildren _ _⟩

/-- A key parsed as `isNested` always carries a nonempty path. -/
theorem parseKeyStructure_nested_path_ne_nil :
    ∀ (key : String) (parsed : parsedKey),
      parseKeyStructure key = some parsed → parsed.isNested = true →
      parsed.path ≠ [] := by
  intro key parsed h hn
  unfold parseKeyStructure at h
  split at h
  · cases h; simp at hn
  · split at h
    · cases h
    · split at h
      · cases h; simp at hn
      · split at h
        · cases h; simp at hn
        · cases h; simp

/-- A bracket-free key parses as the bare base name. -/
theorem parseKeyStructure_bare (key : String)
    (h1 : containsChar key '[' = false) (h2 : containsChar key ']' = false) :
    parseKeyStructure key = some { baseKey := key } := by
  unfold parseKeyStructure
  rw [if_pos (by simp [h1, h2])]

/-- One fold step of `groupKeysByStructure` over an entry whose base key is
not `k` leaves the group stored under `k` unchanged. -/
theorem groupStep_other_base (acc acc' : List (String × KeyGroup)) (key : String)
    (vs : List String) (k : String)
    (hstep : groupStep acc key vs = some acc')
    (hother : ∀ parsed, parseKeyStructure key = some parsed → parsed.baseKey ≠ k) :
    lookupA acc' k = lookupA acc k := by
  cases vs with
  | nil =>
    simp only [groupStep, Option.some.injEq] at hstep
    subst hstep; rfl
  | cons value tail =>
    match hp : parseKeyStructure key with
    | none =>
      simp only [groupStep, hp] at hstep
      cases hstep
    | some parsed =>
      simp only [groupStep, hp, Option.some.injEq] at hstep
      subst hstep
      exact lookupA_updateA_ne _ _ _ _ (hother parsed hp)

/-- One fold step over a bracketed (array- or nested-classified) entry whose
base key is `k` preserves the scalar facet of the group stored under `k`. -/
theorem groupStep_child_preserves (acc acc' : List (String × KeyGroup))
    (key : String) (vs : List String) (k : String) (parsed : parsedKey)
    (g : KeyGroup)
    (hstep : groupStep acc key vs = some acc')
    (hp : parseKeyStructure key = some parsed)
    (hbk : parsed.baseKey = k)
    (hclass : parsed.isArray = true ∨ parsed.isNested = true)
    (hg : lookupA acc k = some g) :
    ∃ g', lookupA acc' k = some g' ∧ g'.isSimple = g.isSimple ∧
      g'.value = g.value := by
  cases vs with
  | nil =>
    simp only [groupStep, Option.some.injEq] at hstep
    subst hstep
    exact ⟨g, hg, rfl, rfl⟩
  | cons value tail =>
    simp only [groupStep, hp, Option.some.injEq] at hstep
    subst hstep
    rw [hbk, hg]
    by_cases ha : parsed.isArray = true
    · rw [if_pos ha]
      refine ⟨_, lookupA_updateA_self _ _ _, ?_, ?_⟩
      · rw [(addToArrayGroup_preserves _ _ _).1, Option.getD_some,
          KeyGroup.isSimple_setIsArrayTrue]
      · rw [(addToArrayGroup_preserves _ _ _).2, Option.getD_some,
          KeyGroup.value_setIsArrayTrue]
    · have hn : parsed.isNested = true := hclass.resolve_left ha
      rw [if_neg ha, if_pos hn]
      have hpath : parsed.path ≠ [] :=
        parseKeyStructure_nested_path_ne_nil key parsed hp hn
      refine ⟨_, lookupA_updateA_self _ _ _, ?_, ?_⟩
      · unfold addToObjectGroup
        match hq : parsed.path with
        | [] => exact absurd hq hpath
        | s :: restp =>
          rw [(addNestedToGroup_cons_preserves _ _ _ _).1, Option.getD_some,
            KeyGroup.isSimple_setIsObjectTrue]
      · unfold addToObjectGroup
        match hq : parsed.path with
        | [] => exact absurd hq hpath
        | s :: restp =>
          rw [(addNestedToGroup_cons_preserves _ _ _ _).2, Option.getD_some,
            KeyGroup.value_setIsObjectTrue]

/-- Folding further entries that are all either foreign-based or bracketed
children of `k` preserves the scalar facet stored under `k`. -/
theorem foldGroups_keeps :
    ∀ (entries : List (String × List String)) (acc acc' : List (String × KeyGroup))
      (k : String) (g : KeyGroup),
      entries.foldlM (fun gs kv => groupStep gs kv.1 kv.2) acc = some acc' →
      (∀ e, e ∈ entries → e.1 ≠ k ∧
        (∀ parsed, parseKeyStructure e.1 = some parsed → parsed.baseKey = k →
          parsed.isArray = true ∨ parsed.isNested = true)) →
      lookupA acc k = some g → g.isSimple = true →
      ∃ g', lookupA acc' k = some g' ∧ g'.isSimple = true ∧
        g'.value = g.value := by
  intro entries
  induction entries with
  | nil =>
    intro acc acc' k g hfold _ hg hs
    simp only [List.foldlM_nil, Option.pure_def, Option.some.injEq] at hfold
    subst hfold
    exact ⟨g, hg, hs, rfl⟩
  | cons e tail ih =>
    intro acc acc' k g hfold hok hg hs
    simp only [List.foldlM_cons] at hfold
    match hstep : groupStep acc e.1 e.2 with
    | none => rw [hstep] at hfold; cases hfold
    | some acc₁ =>
      rw [hstep] at hfold
      have hoktail : ∀ e', e' ∈ tail → e'.1 ≠ k ∧
          (∀ parsed, parseKeyStructure e'.1 = some parsed → parsed.baseKey = k →
            parsed.isArray = true ∨ parsed.isNested = true) :=
        fun e' he' => hok e' (List.mem_cons_of_mem e he')
      have hoke := hok e (List.mem_cons_self e tail)
      -- how the head step acts on the group at k
      match hp : parseKeyStructure e.1 with
      | none =>
        cases hv : e.2 with
        | nil =>
          rw [hv] at hstep
          simp only [groupStep, Option.some.injEq] at hstep
          subst hstep
          exact ih acc acc' k g hfold hoktail hg hs
        | cons value tailv =>
          rw [hv] at hstep
          simp only [groupStep, hp] at hstep
          cases hstep
      | some parsed =>
        by_cases hbk : parsed.baseKey = k
        · obtain ⟨g₁, hg₁, hs₁, hvval⟩ :=
            groupStep_child_preserves acc acc₁ e.1 e.2 k parsed g hstep hp hbk
              (hoke.2 parsed hp hbk) hg
          obtain ⟨g₂, hg₂, hs₂, hv₂⟩ :=
            ih acc₁ acc' k g₁ hfold hoktail hg₁ (by rw [hs₁, hs])
          exact ⟨g₂, hg₂, hs₂, by rw [hv₂, hvval]⟩
        · have := groupStep_other_base acc acc₁ e.1 e.2 k hstep
            (by intro parsed' hp'; rw [hp] at hp'; cases hp'; exact hbk)
          rw [← this] at hg
          exact ih acc₁ acc' k g hfold hoktail hg hs

/-- Folding a corpus that contains the bare entry `(k, v :: vs)` — with all
other entries based at `k` being bracketed children — leaves the group at
`k` simple with the raw string `v`. -/
theorem foldGroups_reaches :
    ∀ (entries : List (String × List String)) (acc acc' : List (String × KeyGroup))
      (k v : String) (vs : List String),
      entries.foldlM (fun gs kv => groupStep gs kv.1 kv.2) acc = some acc' →
      (k, v :: vs) ∈ entries →
      (entries.map Prod.fst).Nodup →
      containsChar k '[' = false → containsChar k ']' = false →
      (∀ e, e ∈ entries → e.1 ≠ k →
        ∀ parsed, parseKeyStructure e.1 = some parsed → parsed.baseKey = k →
          parsed.isArray = true ∨ parsed.isNested = true) →
      ∃ g', lookupA acc' k = some g' ∧ g'.isSimple = true ∧
        g'.value = some (.str v) := by
  intro entries
  induction entries with
  | nil => intro acc acc' k v vs _ hmem; simp at hmem
  | cons e tail ih =>
    intro acc acc' k v vs hfold hmem hnd hc1 hc2 hothers
    simp only [List.foldlM_cons] at hfold
    match hstep : groupStep acc e.1 e.2 with
    | none => rw [hstep] at hfold; cases hfold
    | some acc₁ =>
      rw [hstep] at hfold
      simp only [List.map_cons, List.nodup_cons] at hnd
      by_cases hek : e.1 = k
      · -- the head must be the bare entry itself
        have hebare : e = (k, v :: vs) := by
          rcases List.mem_cons.mp hmem with h | h
          · exact h.symm
          · exfalso
            apply hnd.1
            rw [hek]
            exact List.mem_map_of_mem Prod.fst h
        subst hebare
        have hparse : parseKeyStructure k = some { baseKey := k } :=
          parseKeyStructure_bare k hc1 hc2
        have hacc₁ : acc₁ = updateA acc k
            (((lookupA acc k).getD (newGroup k)).setRawScalar v) := by
          simp only [groupStep, hparse, Option.some.injEq] at hstep
          exact hstep.symm
        have hg₁ : lookupA acc₁ k =
            some (((lookupA acc k).getD (newGroup k)).setRawScalar v) := by
          rw [hacc₁]; exact lookupA_updateA_self _ _ _
        have hktail : ∀ e', e' ∈ tail → e'.1 ≠ k := by
          intro e' he' hcontra
          apply hnd.1
          show k ∈ List.map Prod.fst tail
          rw [← hcontra]
          exact List.mem_map_of_mem Prod.fst he'
        obtain ⟨g₂, hg₂, hs₂, hv₂⟩ := foldGroups_keeps tail acc₁ acc' k _ hfold
          (fun e' he' => ⟨hktail e' he',
            fun parsed hp hbk => hothers e' (List.mem_cons_of_mem _ he')
              (hktail e' he') parsed hp hbk⟩)
          hg₁ (KeyGroup.isSimple_setRawScalar _ _)
        exact ⟨g₂, hg₂, hs₂, by rw [hv₂, KeyGroup.value_setRawScalar]⟩
      · -- the head is some other entry; the bare one sits in the tail
        have hmemtail : (k, v :: vs) ∈ tail := by
          rcases List.mem_cons.mp hmem with h | h
          · exact absurd (congrArg Prod.fst h.symm) hek
          · exact h
        exact ih acc₁ acc' k v vs hfold hmemtail hnd.2 hc1 hc2
          (fun e' he' => hothers e' (List.mem_cons_of_mem _ he'))

/-- The materialization fold of `parseFormFlexibly` leaves entries under
keys outside the remaining groups untouched. -/
theorem materializeFold_preserves :
    ∀ (groups : List (String × KeyGroup)) (res₀ res : List (String × JVal))
      (k : String),
      groups.foldlM
        (fun result p =>
          if p.2.isSimple then some (updateA result p.1 (p.2.value.getD .null))
          else if p.2.isArray then
            (buildArrayFromGroup p.2).map fun l => updateA result p.1 (.arr l)
          else
            (buildObjectFromGroup p.2).map fun o => updateA result p.1 (.obj o))
        res₀ = some res →
      k ∉ groups.map Prod.fst →
      lookupA res k = lookupA res₀ k := by
  intro groups
  induction groups with
  | nil =>
    intro res₀ res k hfold _
    simp only [List.foldlM_nil, Option.pure_def, Option.some.injEq] at hfold
    subst hfold; rfl
  | cons p rest ih =>
    intro res₀ res k hfold hmem
    simp only [List.map_cons, List.mem_cons] at hmem
    push_neg at hmem
    simp only [List.foldlM_cons] at hfold
    by_cases hs : p.2.isSimple
    · rw [if_pos hs] at hfold
      rw [ih _ _ k hfold hmem.2, lookupA_updateA_ne _ _ _ _ (fun h => hmem.1 h.symm)]
    · rw [if_neg hs] at hfold
      by_cases ha : p.2.isArray
      · rw [if_pos ha] at hfold
        match hb : buildArrayFromGroup p.2 with
        | none => rw [hb] at hfold; cases hfold
        | some l =>
          rw [hb] at hfold
          simp only [Option.map_some'] at hfold
          rw [ih _ _ k hfold hmem.2,
            lookupA_updateA_ne _ _ _ _ (fun h => hmem.1 h.symm)]
      · rw [if_neg ha] at hfold
        match hb : buildObjectFromGroup p.2 with
        | none => rw [hb] at hfold; cases hfold
        | some o =>
          rw [hb] at hfold
          simp only [Option.map_some'] at hfold
          rw [ih _ _ k hfold hmem.2,
            lookupA_updateA_ne _ _ _ _ (fun h => hmem.1 h.symm)]

/-- The materialization fold writes a simple group's stored value under its
base key. -/
theorem materializeFold_simple :
    ∀ (groups : List (String × KeyGroup)) (res₀ res : List (String × JVal))
      (k : String) (g : KeyGroup),
      groups.foldlM
        (fun result p =>
          if p.2.isSimple then some (updateA result p.1 (p.2.value.getD .null))
          else if p.2.isArray then
            (buildArrayFromGroup p.2).map fun l => updateA result p.1 (.arr l)
          else
            (buildObjectFromGroup p.2).map fun o => updateA result p.1 (.obj o))
        res₀ = some res →
      (groups.map Prod.fst).Nodup →
      lookupA groups k = some g → g.isSimple = true →
      lookupA res k = some (g.value.getD .null) := by
  intro groups
  induction groups with
  | nil => intro res₀ res k g _ _ hg; simp [lookupA] at hg
  | cons p rest ih =>
    intro res₀ res k g hfold hnd hg hs
    simp only [List.map_cons, List.nodup_cons] at hnd
    simp only [List.foldlM_cons] at hfold
    simp only [lookupA] at hg
    by_cases hek : p.1 = k
    · rw [if_pos hek] at hg
      cases hg
      rw [if_pos hs] at hfold
      have hknot : k ∉ rest.map Prod.fst := hek ▸ hnd.1
      rw [materializeFold_preserves rest _ res k hfold hknot, ← hek]
      exact lookupA_updateA_self res₀ p.1 _
    · rw [if_neg hek] at hg
      by_cases hsp : p.2.isSimple
      · rw [if_pos hsp] at hfold
        exact ih _ _ k g hfold hnd.2 hg hs
      · rw [if_neg hsp] at hfold
        by_cases ha : p.2.isArray
        · rw [if_pos ha] at hfold
          match hb : buildArrayFromGroup p.2 with
          | none => rw [hb] at hfold; cases hfold
          | some l =>
            rw [hb] at hfold
            simp only [Option.map_some'] at hfold
            exact ih _ _ k g hfold hnd.2 hg hs
        · rw [if_neg ha] at hfold
          match hb : buildObjectFromGroup p.2 with
          | none => rw [hb] at hfold; cases hfold
          | some o =>
            rw [hb] at hfold
            simp only [Option.map_some'] at hfold
            exact ih _ _ k g hfold hnd.2 hg hs

/-- The fold of `groupKeysByStructure` keeps the base keys distinct. -/
theorem foldGroups_nodup :
    ∀ (entries : List (String × List String)) (acc acc' : List (String × KeyGroup)),
      entries.foldlM (fun gs kv => groupStep gs kv.1 kv.2) acc = some acc' →
      (acc.map Prod.fst).Nodup → (acc'.map Prod.fst).Nodup := by
  intro entries
  induction entries with
  | nil =>
    intro acc acc' hfold h
    simp only [List.foldlM_nil, Option.pure_def, Option.some.injEq] at hfold
    subst hfold; exact h
  | cons e tail ih =>
    intro acc acc' hfold h
    simp only [List.foldlM_cons] at hfold
    match hstep : groupStep acc e.1 e.2 with
    | none => rw [hstep] at hfold; cases hfold
    | some acc₁ =>
      rw [hstep] at hfold
      refine ih acc₁ acc' hfold ?_
      unfold groupStep at hstep
      match hv : e.2 with
      | [] => rw [hv] at hstep; cases hstep; exact h
      | value :: tailv =>
        rw [hv] at hstep
        match hp : parseKeyStructure e.1 with
        | none => rw [hp] at hstep; cases hstep
        | some parsed =>
          rw [hp] at hstep
          simp only [Option.some.injEq] at hstep
          subst hstep
          exact nodup_map_fst_updateA acc parsed.baseKey _ h

/-- C2 (amended): when one entry assigns a scalar to a bare base key and
every other entry under the same base key is a bracketed child, the
materialized value at that key is the scalar — the raw (uncoerced) first
string of the bare entry — and the children are discarded. -/
theorem c2_amended_scalar_wins :
    ∀ (values : List (String × List String)) (k v : String) (vs : List String)
      (res : List (String × JVal)),
      (k, v :: vs) ∈ values →
      containsChar k '[' = false →
      containsChar k ']' = false →
      (values.map Prod.fst).Nodup →
      (∀ e, e ∈ values → e.1 ≠ k →
        ∀ parsed, parseKeyStructure e.1 = some parsed → parsed.baseKey = k →
          parsed.isArray = true ∨ parsed.isNested = true) →
      parseFormFlexibly values = some res →
      lookupA res k = some (.str v) := by
  intro values k v vs res hmem hc1 hc2 hnd hothers hres
  unfold parseFormFlexibly at hres
  match hgroups : groupKeysByStructure values with
  | none => rw [hgroups] at hres; cases hres
  | some groups =>
    rw [hgroups] at hres
    unfold groupKeysByStructure at hgroups
    obtain ⟨g', hg', hs', hv'⟩ :=
      foldGroups_reaches values [] groups k v vs hgroups hmem hnd hc1 hc2 hothers
    have hndg : (groups.map Prod.fst).Nodup :=
      foldGroups_nodup values [] groups hgroups (by simp)
    have := materializeFold_simple groups [] res k g' hres hndg hg' hs'
    rw [hv'] at this
    exact this

/-- C2 witness: the amended theorem applied to the corpus
`a=5 & a[b]=6`; the first conjunct additionally shows the full concrete
materialization. -/
theorem c2_amended_scalar_wins_witness :
    parseFormFlexibly [("a", ["5"]), ("a[b]", ["6"])] = some [("a", .str "5")] ∧
    lookupA [("a", JVal.str "5")] "a" = some (.str "5") :=
  ⟨rfl,
   c2_amended_scalar_wins [("a", ["5"]), ("a[b]", ["6"])] "a" "5" []
     [("a", .str "5")] (by decide) rfl rfl (by decide)
     (by intro e he hne parsed hp hbk
         rcases List.mem_cons.mp he with h | h
         · exact absurd (congrArg Prod.fst h) hne
         · rcases List.mem_cons.mp h with h2 | h2
           · subst h2
             have : parseKeyStructure "a[b]" =
                 some { baseKey := "a", isNested := true, path := ["b"] } := rfl
             rw [this] at hp
             cases hp
             exact Or.inr rfl
           · simp at h2)
     rfl⟩

example : convertValueToType "123" = .int 123 := rfl
example : convertValueToType "1.5" = .float (.finite (mkRat 3 2)) := rfl
example : convertValueToType "-2.5e1" = .float (.finite (mkRat (-25) 1)) := rfl
example : convertValueToType "true" = .bool true := rfl
example : convertValueToType "0" = .int 0 := rfl
example : convertValueToType "john" = .str "john" := rfl

end Parseform
